import Mathlib

/-!
# TriMatch rules engine and minimax search: a shallow embedding

This file embeds the core game logic of the TriMatch repository
(`trimatch.py`, with the GUI variant `trimatch_gui.py` where the two
differ) in Lean 4 and proves the specification claims about it.

The Python board is a 3×3 array whose cells hold `None` or one of the
tile values `1` (Noble, `n`), `2` (Knight, `k`), `3` (Mystic, `m`).
We model a board as a list of 9 cells in row-major order
(`board[r][c]` is index `3*r + c`), carrying the length invariant.
-/

/-- The three tile kinds: `n` = Noble (1), `k` = Knight (2), `m` = Mystic (3). -/
inductive Tile where
  | n
  | k
  | m
deriving DecidableEq, Repr

/-- `tile_map` in the source: the integer value of each tile. -/
def Tile.val : Tile → Nat
  | .n => 1
  | .k => 2
  | .m => 3

instance : Fintype Tile :=
  ⟨⟨{.n, .k, .m}, by decide⟩, by intro x; cases x <;> decide⟩

/-- A cell of the board: `none` is an empty cell (`None` in Python). -/
abbrev Cell := Option Tile

/-- A board: 9 cells, row-major (`board[r][c]` at index `3*r + c`). -/
def Board := { l : List Cell // l.length = 9 }

instance : DecidableEq Board := Subtype.instDecidableEq

/-- `board[r][c]` (total, via `getD`; the index is always in range). -/
def getCell (b : Board) (r c : Fin 3) : Cell :=
  b.val.getD (3 * r.val + c.val) none

/-- The 8 lines of the board exactly as `check_outcome` builds them:
row `i` and column `i` for `i = 0,1,2`, then the two diagonals. -/
def linesOfList (l : List Cell) : List (List Cell) :=
  let g : Nat → Cell := fun i => l.getD i none
  [ [g 0, g 1, g 2], [g 0, g 3, g 6],
    [g 3, g 4, g 5], [g 1, g 4, g 7],
    [g 6, g 7, g 8], [g 2, g 5, g 8],
    [g 0, g 4, g 8], [g 2, g 4, g 6] ]

/-- The lines of a board. -/
def linesOf (b : Board) : List (List Cell) := linesOfList b.val

/-- `None not in line`. -/
def LineFull (line : List Cell) : Prop := ¬ (none ∈ line)

instance : DecidablePred LineFull := fun line =>
  inferInstanceAs (Decidable ¬ _)

/-- `set(line) == {1, 2, 3}`: the set of cell values of the line is
exactly {Noble, Knight, Mystic}. -/
def LineTriad (line : List Cell) : Prop :=
  line.toFinset = ({some .n, some .k, some .m} : Finset Cell)

instance : DecidablePred LineTriad := fun line =>
  inferInstanceAs (Decidable (_ = _))

/-- `line[0] == line[1] == line[2]`. -/
def LineMono (line : List Cell) : Prop :=
  line.getD 0 none = line.getD 1 none ∧ line.getD 1 none = line.getD 2 none

instance : DecidablePred LineMono := fun line =>
  inferInstanceAs (Decidable (_ ∧ _))

/-- `all(board[r][c] is not None for r in range(3) for c in range(3))`. -/
def BoardFull (b : Board) : Prop :=
  ∀ r c : Fin 3, getCell b r c ≠ none

instance : DecidablePred BoardFull := fun _ =>
  inferInstanceAs (Decidable (∀ _, _))

/-- Game outcomes returned by `check_outcome` (`'win'`, `'loss'`, `'draw'`). -/
inductive Outcome where
  | win
  | loss
  | draw
deriving DecidableEq, Repr

/-- `check_outcome(board)`: first scan the 8 lines for a full 1-2-3 line
(loss), then for a full identical line (win), then report a draw on a
full board, else `None` (ongoing). -/
def check_outcome (b : Board) : Option Outcome :=
  if ∃ line ∈ linesOf b, LineFull line ∧ LineTriad line then some .loss
  else if ∃ line ∈ linesOf b, LineFull line ∧ LineMono line then some .win
  else if BoardFull b then some .draw
  else none

/-- `count_tile(board, val)`: how many cells hold tile `t`. -/
def count_tile (b : Board) (t : Tile) : Nat :=
  b.val.count (some t)

/-- A move: place tile `t` on cell `(r, c)` (the source encodes this as a
three-character string such as `"nb2"`; we keep the structured form). -/
structure Move where
  t : Tile
  r : Fin 3
  c : Fin 3
deriving DecidableEq, Repr

instance : Fintype Move :=
  ⟨⟨((List.finRange 3).flatMap fun r => (List.finRange 3).flatMap fun c =>
      [Tile.n, Tile.k, Tile.m].map fun t => Move.mk t r c : List Move), by decide⟩,
    by intro ⟨t, r, c⟩; cases t <;> fin_cases r <;> fin_cases c <;> decide⟩

/-- All 27 candidate moves in the enumeration order of the Python loops:
rows outermost, then columns, then the tile kinds `n`, `k`, `m`. -/
def allCandidates : List Move :=
  (List.finRange 3).flatMap fun r =>
    (List.finRange 3).flatMap fun c =>
      [Tile.n, Tile.k, Tile.m].map fun t => Move.mk t r c

/-- The per-candidate legality test of `get_possible_moves`: on an empty
target the tile's on-board count must be `< 3`; on an occupied target the
new tile must rank strictly higher and its count must be `< 3`. -/
def legalb (b : Board) (mv : Move) : Bool :=
  match getCell b mv.r mv.c with
  | none => decide (count_tile b mv.t < 3)
  | some target => decide (target.val < mv.t.val ∧ count_tile b mv.t < 3)

/-- `get_possible_moves(board)`: the candidates kept by the legality test,
in the source's enumeration order. -/
def get_possible_moves (b : Board) : List Move :=
  allCandidates.filter (legalb b)

/-- `apply_move(board, move)`: a fresh board with cell `(r, c)` set. -/
def apply_move (b : Board) (mv : Move) : Board :=
  ⟨b.val.set (3 * mv.r.val + mv.c.val) (some mv.t),
   by rw [List.length_set]; exact b.2⟩

/-- The empty starting board (`[[None]*3 for _ in range(3)]`). -/
def empty_board : Board := ⟨List.replicate 9 none, rfl⟩

example : check_outcome empty_board = none := by decide
example : (get_possible_moves empty_board).length = 27 := by decide
example :
    check_outcome ⟨[some .n, some .k, some .m,
                    none, none, none, none, none, none], rfl⟩ = some .loss := by
  decide
example :
    check_outcome ⟨[some .k, some .k, some .k,
                    none, none, none, none, none, none], rfl⟩ = some .win := by
  decide

/-!
## Claim C1: `check_outcome` against the specification wording

The specification states the classification with Loss before Win before
Draw, with Loss holding when a full line is a permutation of exactly
{Noble, Knight, Mystic} and Win when a full line holds three identical
ranks. We define that classification literally and prove it equal to
`check_outcome` on every board.
-/

/-- Specification wording: the line's three cells are a permutation of
exactly {Noble, Knight, Mystic} (order irrelevant); in particular the
line has no empty cell. -/
def SpecTriadLine (line : List Cell) : Prop :=
  line.Perm [some .n, some .k, some .m]

instance : DecidablePred SpecTriadLine := fun line =>
  inferInstanceAs (Decidable (line.Perm _))

/-- Specification wording: the line is fully occupied by three identical
ranks. -/
def SpecMonoLine (line : List Cell) : Prop :=
  ∃ t : Tile, line = [some t, some t, some t]

instance : DecidablePred SpecMonoLine := fun line =>
  inferInstanceAs (Decidable (∃ _, _))

/-- Outcome classification as worded by the specification: Loss if some
line is a permutation of {Noble, Knight, Mystic}; otherwise Win if some
line is fully occupied by three identical ranks; otherwise Draw if all 9
cells are occupied; otherwise Ongoing (`none`). -/
def spec_outcome (b : Board) : Option Outcome :=
  if ∃ line ∈ linesOf b, SpecTriadLine line then some .loss
  else if ∃ line ∈ linesOf b, SpecMonoLine line then some .win
  else if BoardFull b then some .draw
  else none

/-- Every line produced by `linesOf` is a 3-element list. -/
theorem lines_shape (b : Board) :
    ∀ l ∈ linesOf b, ∃ x y z : Cell, l = [x, y, z] := by
  intro l hl
  simp only [linesOf, linesOfList, List.mem_cons, List.not_mem_nil,
    or_false] at hl
  rcases hl with rfl | rfl | rfl | rfl | rfl | rfl | rfl | rfl <;>
    exact ⟨_, _, _, rfl⟩

/-- On a 3-element line, the source condition
`None not in line and set(line) == {1,2,3}` says exactly that the line is
a permutation of [Noble, Knight, Mystic]. -/
theorem triad_line_iff :
    ∀ x y z : Cell,
      (LineFull [x, y, z] ∧ LineTriad [x, y, z]) ↔ SpecTriadLine [x, y, z] := by
  decide

/-- On a 3-element line, the source condition
`None not in line and line[0] == line[1] == line[2]` says exactly that the
line is fully occupied by three identical ranks. -/
theorem mono_line_iff :
    ∀ x y z : Cell,
      (LineFull [x, y, z] ∧ LineMono [x, y, z]) ↔ SpecMonoLine [x, y, z] := by
  decide

/-- **C1.** For every 3×3 board, `check_outcome` classifies with exactly the
specified precedence: Loss if some of the 8 lines is fully occupied by a
permutation of {Noble, Knight, Mystic}; otherwise Win if some line is fully
occupied by three identical ranks; otherwise Draw if all 9 cells are
occupied; otherwise Ongoing. In particular a board meeting both the Loss
and Win conditions is classified Loss, because the Loss test comes first. -/
theorem check_outcome_eq_spec_outcome (b : Board) :
    check_outcome b = spec_outcome b := by
  have hshape := lines_shape b
  have e1 : (∃ line ∈ linesOf b, LineFull line ∧ LineTriad line) ↔
      (∃ line ∈ linesOf b, SpecTriadLine line) := by
    constructor
    · rintro ⟨l, hl, h⟩
      obtain ⟨x, y, z, rfl⟩ := hshape l hl
      exact ⟨_, hl, (triad_line_iff x y z).mp h⟩
    · rintro ⟨l, hl, h⟩
      obtain ⟨x, y, z, rfl⟩ := hshape l hl
      exact ⟨_, hl, (triad_line_iff x y z).mpr h⟩
  have e2 : (∃ line ∈ linesOf b, LineFull line ∧ LineMono line) ↔
      (∃ line ∈ linesOf b, SpecMonoLine line) := by
    constructor
    · rintro ⟨l, hl, h⟩
      obtain ⟨x, y, z, rfl⟩ := hshape l hl
      exact ⟨_, hl, (mono_line_iff x y z).mp h⟩
    · rintro ⟨l, hl, h⟩
      obtain ⟨x, y, z, rfl⟩ := hshape l hl
      exact ⟨_, hl, (mono_line_iff x y z).mpr h⟩
  unfold check_outcome spec_outcome
  exact if_congr e1 rfl (if_congr e2 rfl rfl)

/-!
## Claim C6: can the Win and Loss conditions hold simultaneously?

On a single line they cannot (a line cannot be both all-identical and
all-distinct). But the Win and Loss conditions of a *board* quantify over
possibly different lines, and a board can complete a monochrome line and
a Noble-Knight-Mystic line at the same time — even within the per-rank
≤ 3 pool invariant, and even by a single move (see `reach_both_board`
further below). `check_outcome` classifies such a board as Loss.
-/

/-- A board whose top row is a Win line (three Nobles) while its first
column is a Loss line (Noble, Knight, Mystic). It satisfies the per-rank
≤ 3 invariant. -/
def bothBoard : Board :=
  ⟨[some .n, some .n, some .n,
    some .k, none, none,
    some .m, none, none], rfl⟩

/-- **C6 counterexample.** `bothBoard` satisfies the per-rank invariant yet
meets the Win condition (a fully occupied all-identical line) and the Loss
condition (a fully occupied Noble-Knight-Mystic line) simultaneously;
`check_outcome` classifies it as Loss. -/
theorem both_conditions_hold_on_bothBoard :
    (∀ t : Tile, count_tile bothBoard t ≤ 3)
    ∧ (∃ line ∈ linesOf bothBoard, LineFull line ∧ LineMono line)
    ∧ (∃ line ∈ linesOf bothBoard, LineFull line ∧ LineTriad line)
    ∧ check_outcome bothBoard = some .loss := by
  decide

/-- **C6 amended.** On any single line, at most one of the Win condition
(fully occupied, all identical) and the Loss condition (fully occupied,
a permutation of {Noble, Knight, Mystic}) holds; a board may still satisfy
both conditions via two different lines. -/
theorem line_not_mono_and_triad :
    ∀ x y z : Cell,
      ¬ ((LineFull [x, y, z] ∧ LineMono [x, y, z]) ∧
         (LineFull [x, y, z] ∧ LineTriad [x, y, z])) := by
  decide

/-!
## The minimax search of `trimatch.py`

`minimax_score(board_key, current_player, depth)` reads the globals
`AI_MAX_DEPTH` (the difficulty, `None` meaning unbounded) and
`MAX_GAME_DEPTH = 15`; we pass the former explicitly. Scores are Python
floats: either an integer, or the loop initializers `-float('inf')` /
`float('inf')`, so we use an extended-integer score type.

The Python recursion terminates because every legal move strictly
increases the total rank value on the board, which is at most 27. We
define the function by structural recursion on a fuel argument, start it
with fuel 28, prove that the result does not depend on the fuel as long
as the fuel exceeds `27 - boardSum`, and derive the exact recurrence of
the Python code (`minimax_score_spec` below), so the fuel is invisible.
-/

/-- `MAX_GAME_DEPTH = 15`. -/
def MAX_GAME_DEPTH : Nat := 15

/-- A Python float as produced by the search: an integer score, or one of
the loop initializers `-float('inf')` / `float('inf')`. -/
inductive XScore where
  | ninf
  | fin (v : Int)
  | pinf
deriving DecidableEq, Repr

/-- The `<` comparison on scores (Python float comparison). -/
def XScore.lt : XScore → XScore → Bool
  | .ninf, .ninf => false
  | .ninf, _ => true
  | .fin _, .ninf => false
  | .fin a, .fin b => decide (a < b)
  | .fin _, .pinf => true
  | .pinf, _ => false

/-- The `<=` comparison on scores. -/
def XScore.le (a b : XScore) : Bool := ! b.lt a

/-- `evaluate_terminal(board_key, current_player)`: `None` on an ongoing
board, otherwise the raw value ±1 (0 for a draw) from Player 1's
standpoint, attributed to the player who just moved (`3 - current_player`). -/
def evaluate_terminal (b : Board) (current_player : Nat) : Option Int :=
  match check_outcome b with
  | none => none
  | some res =>
    let last_player := 3 - current_player
    match res with
    | .win => some (if last_player = 1 then 1 else -1)
    | .loss => some (if last_player = 1 then -1 else 1)
    | .draw => some 0

/-- `AI_MAX_DEPTH is not None and depth >= AI_MAX_DEPTH`. -/
def depth_cutoff (aiMaxDepth : Option Nat) (depth : Nat) : Bool :=
  match aiMaxDepth with
  | some md => decide (md ≤ depth)
  | none => false

/-- The maximizing loop of `minimax_score` for `current_player == 1`,
including the early `break` once `best == 1`: fold the child scores,
keeping the best so far. The Python loop stops requesting further child
scores after the break; as the children are pure, folding over the
already-computed list returns the identical value. -/
def pyMaxLoop : XScore → List XScore → XScore
  | best, [] => best
  | best, score :: rest =>
    if best.lt score then
      if score = .fin 1 then score else pyMaxLoop score rest
    else pyMaxLoop best rest

/-- The minimizing loop for `current_player == 2`, with the early `break`
once `worst == -1`. -/
def pyMinLoop : XScore → List XScore → XScore
  | worst, [] => worst
  | worst, score :: rest =>
    if score.lt worst then
      if score = .fin (-1) then score else pyMinLoop score rest
    else pyMinLoop worst rest

/-- The rank value held by a cell (0 for an empty cell). -/
def cellVal : Cell → Nat
  | none => 0
  | some t => t.val

/-- Total rank value of a board; every legal move strictly increases it. -/
def boardSum (b : Board) : Nat := (b.val.map cellVal).sum

/-- `minimax_score` with an explicit fuel, structurally recursive. The
fuel-exhausted value is never reached when called with fuel
`> 27 - boardSum b` (see `minimax_go_gas_irrelevant`). -/
def minimax_go : Nat → Board → Nat → Nat → Option Nat → XScore
  | 0, _, _, _, _ => .fin 0
  | gas + 1, b, current_player, depth, aiMaxDepth =>
    if depth_cutoff aiMaxDepth depth then .fin 0
    else
      match evaluate_terminal b current_player with
      | some terminal => .fin (terminal * ((MAX_GAME_DEPTH : Int) - depth))
      | none =>
        if current_player = 1 then
          pyMaxLoop .ninf ((get_possible_moves b).map fun m =>
            minimax_go gas (apply_move b m) 2 (depth + 1) aiMaxDepth)
        else
          pyMinLoop .pinf ((get_possible_moves b).map fun m =>
            minimax_go gas (apply_move b m) 1 (depth + 1) aiMaxDepth)

/-- `minimax_score(board_key, current_player, depth)` with the global
`AI_MAX_DEPTH` passed explicitly (`none` = unbounded). -/
def minimax_score (b : Board) (current_player : Nat) (depth : Nat)
    (aiMaxDepth : Option Nat) : XScore :=
  minimax_go 28 b current_player depth aiMaxDepth

/-- Each cell is worth at most 3, so a list of cells sums to at most
3 times its length. -/
theorem sum_map_cellVal_le (l : List Cell) :
    (l.map cellVal).sum ≤ 3 * l.length := by
  induction l with
  | nil => simp
  | cons x t ih =>
    have hx : cellVal x ≤ 3 := by
      rcases x with _ | tt
      · decide
      · cases tt <;> decide
    simp only [List.map_cons, List.sum_cons, List.length_cons]
    omega

/-- A board sums to at most 27. -/
theorem boardSum_le (b : Board) : boardSum b ≤ 27 := by
  have h := sum_map_cellVal_le b.val
  rw [b.2] at h
  exact h.trans (by omega)

/-- A list of cells containing an empty cell sums to at most
3 times its length minus 3. -/
theorem sum_map_cellVal_lt_of_none_mem (l : List Cell) (h : none ∈ l) :
    (l.map cellVal).sum + 3 ≤ 3 * l.length := by
  induction l with
  | nil => cases h
  | cons x t ih =>
    simp only [List.map_cons, List.sum_cons, List.length_cons]
    rcases List.mem_cons.mp h with rfl | hmem
    · have := sum_map_cellVal_le t
      simp only [cellVal]
      omega
    · have hx : cellVal x ≤ 3 := by
        rcases x with _ | tt
        · decide
        · cases tt <;> decide
      have := ih hmem
      omega

/-- `getD` at an in-range index returns a member of the list. -/
theorem getD_mem_of_lt (l : List Cell) (i : Nat) (d : Cell)
    (h : i < l.length) : l.getD i d ∈ l := by
  induction l generalizing i with
  | nil => simp at h
  | cons x t ih =>
    cases i with
    | zero => simp
    | succ j =>
      have hj : j < t.length := by simpa using h
      exact List.mem_cons_of_mem _ (ih j hj)

/-- Replacing an in-range element by a strictly more valuable cell
strictly increases the sum. -/
theorem sum_map_cellVal_set_gt (l : List Cell) (i : Nat) (v : Cell)
    (h : i < l.length) (hlt : cellVal (l.getD i none) < cellVal v) :
    (l.map cellVal).sum < ((l.set i v).map cellVal).sum := by
  induction l generalizing i with
  | nil => simp at h
  | cons x t ih =>
    cases i with
    | zero =>
      simp only [List.getD_cons_zero] at hlt
      simp only [List.set_cons_zero, List.map_cons, List.sum_cons]
      omega
    | succ j =>
      have hj : j < t.length := by simpa using h
      simp only [List.getD_cons_succ] at hlt
      have := ih j hj hlt
      simp only [List.set_cons_succ, List.map_cons, List.sum_cons]
      omega

/-- The flat index of a move's target cell is in range. -/
theorem move_idx_lt (b : Board) (mv : Move) :
    3 * mv.r.val + mv.c.val < b.val.length := by
  rw [b.2]
  have hr := mv.r.isLt
  have hc := mv.c.isLt
  omega

/-- A legal move strictly increases the board's total rank value: it
either fills an empty cell (value 0) with a tile of value ≥ 1, or
replaces a tile by a strictly higher-valued one. -/
theorem boardSum_lt_apply (b : Board) (mv : Move)
    (h : mv ∈ get_possible_moves b) :
    boardSum b < boardSum (apply_move b mv) := by
  have hleg : legalb b mv = true := (List.mem_filter.mp h).2
  have hidx := move_idx_lt b mv
  have hval : cellVal (getCell b mv.r mv.c) < cellVal (some mv.t) := by
    unfold legalb at hleg
    cases hget : getCell b mv.r mv.c with
    | none =>
      have : 1 ≤ mv.t.val := by cases mv.t <;> decide
      simpa [cellVal] using this
    | some target =>
      rw [hget] at hleg
      have := (of_decide_eq_true hleg).1
      simpa [cellVal] using this
  exact sum_map_cellVal_set_gt b.val _ (some mv.t) hidx hval

/-- `check_outcome` returns `None` exactly when no line triggers the Loss
or Win test and the board is not full. -/
theorem check_outcome_eq_none_iff (b : Board) :
    check_outcome b = none ↔
      ¬ (∃ line ∈ linesOf b, LineFull line ∧ LineTriad line) ∧
      ¬ (∃ line ∈ linesOf b, LineFull line ∧ LineMono line) ∧
      ¬ BoardFull b := by
  unfold check_outcome
  split_ifs with h1 h2 h3 <;> simp_all

/-- `evaluate_terminal` returns `None` exactly on ongoing boards. -/
theorem evaluate_terminal_eq_none_iff (b : Board) (cp : Nat) :
    evaluate_terminal b cp = none ↔ check_outcome b = none := by
  unfold evaluate_terminal
  cases h : check_outcome b with
  | none => simp
  | some res => cases res <;> simp

/-- A board that is not full has an empty cell in its cell list. -/
theorem none_mem_of_not_boardFull (b : Board) (h : ¬ BoardFull b) :
    none ∈ b.val := by
  simp only [BoardFull, not_forall, not_not] at h
  obtain ⟨r, c, hrc⟩ := h
  have hidx : 3 * r.val + c.val < b.val.length := by
    rw [b.2]
    have := r.isLt
    have := c.isLt
    omega
  have hmem := getD_mem_of_lt b.val (3 * r.val + c.val) none hidx
  unfold getCell at hrc
  rwa [hrc] at hmem

/-- An ongoing board sums to at most 24 (some cell is empty). -/
theorem boardSum_lt_of_ongoing (b : Board) (h : check_outcome b = none) :
    boardSum b ≤ 24 := by
  obtain ⟨-, -, hfull⟩ := (check_outcome_eq_none_iff b).mp h
  have hmem := none_mem_of_not_boardFull b hfull
  have := sum_map_cellVal_lt_of_none_mem b.val hmem
  rw [b.2] at this
  unfold boardSum
  omega

/-- Every cell holds one of `none`, Noble, Knight, Mystic, so the four
counts partition the 9 cells. -/
theorem counts_partition (l : List Cell) :
    l.count none + l.count (some .n) + l.count (some .k) +
      l.count (some .m) = l.length := by
  induction l with
  | nil => simp
  | cons x t ih =>
    rcases x with _ | tt
    · simp [List.count_cons]
      omega
    · cases tt <;>
      · simp [List.count_cons]
        omega

/-- Every structurally possible move is among the 27 candidates. -/
theorem mem_allCandidates : ∀ mv : Move, mv ∈ allCandidates := by
  decide

/-- On an ongoing board some cell is empty and, since at most 8 of the 9
cells are occupied, some tile kind has fewer than 3 copies on the board;
placing that tile on the empty cell is legal. Hence `get_possible_moves`
is never empty on an ongoing board. -/
theorem get_possible_moves_ne_nil (b : Board) (h : check_outcome b = none) :
    get_possible_moves b ≠ [] := by
  obtain ⟨-, -, hfull⟩ := (check_outcome_eq_none_iff b).mp h
  simp only [BoardFull, not_forall, not_not] at hfull
  obtain ⟨r, c, hrc⟩ := hfull
  have hidx : 3 * r.val + c.val < b.val.length := by
    rw [b.2]
    have := r.isLt
    have := c.isLt
    omega
  have hnone : none ∈ b.val := by
    have hmem := getD_mem_of_lt b.val (3 * r.val + c.val) none hidx
    unfold getCell at hrc
    rwa [hrc] at hmem
  have hpos : 0 < b.val.count none := List.count_pos_iff.mpr hnone
  have hpart := counts_partition b.val
  rw [b.2] at hpart
  have hsome : count_tile b .n < 3 ∨ count_tile b .k < 3 ∨
      count_tile b .m < 3 := by
    unfold count_tile
    omega
  have hmk : ∀ t : Tile, count_tile b t < 3 →
      legalb b (Move.mk t r c) = true := by
    intro t ht
    unfold legalb
    rw [show getCell b (Move.mk t r c).r (Move.mk t r c).c = none from hrc]
    exact decide_eq_true ht
  have hlegal : ∃ t : Tile, legalb b (Move.mk t r c) = true := by
    rcases hsome with ht | ht | ht
    · exact ⟨.n, hmk .n ht⟩
    · exact ⟨.k, hmk .k ht⟩
    · exact ⟨.m, hmk .m ht⟩
  obtain ⟨t, ht⟩ := hlegal
  have hmem : Move.mk t r c ∈ get_possible_moves b :=
    List.mem_filter.mpr ⟨mem_allCandidates _, ht⟩
  intro hnil
  rw [hnil] at hmem
  exact List.not_mem_nil _ hmem

/-- One-step unfolding of `minimax_go` at positive fuel. -/
theorem minimax_go_succ (gas : Nat) (b : Board) (cp d : Nat)
    (md : Option Nat) :
    minimax_go (gas + 1) b cp d md =
      if depth_cutoff md d then .fin 0
      else
        match evaluate_terminal b cp with
        | some terminal => .fin (terminal * ((MAX_GAME_DEPTH : Int) - d))
        | none =>
          if cp = 1 then
            pyMaxLoop .ninf ((get_possible_moves b).map fun m =>
              minimax_go gas (apply_move b m) 2 (d + 1) md)
          else
            pyMinLoop .pinf ((get_possible_moves b).map fun m =>
              minimax_go gas (apply_move b m) 1 (d + 1) md) := rfl

/-- The result of `minimax_go` does not depend on the fuel, as long as the
fuel exceeds `27 - boardSum`: the recursion only expands ongoing boards,
whose sum is at most 24, and each recursive call strictly increases the
sum. -/
theorem minimax_go_gas_irrelevant :
    ∀ g1 g2 b cp d md, 27 - boardSum b < g1 → 27 - boardSum b < g2 →
      minimax_go g1 b cp d md = minimax_go g2 b cp d md := by
  intro g1
  induction g1 with
  | zero => intro g2 b cp d md h1 _; omega
  | succ g1 ih =>
    intro g2 b cp d md h1 h2
    cases g2 with
    | zero => omega
    | succ g2 =>
      rw [minimax_go_succ g1, minimax_go_succ g2]
      cases hcut : depth_cutoff md d
      · simp only [Bool.false_eq_true, if_false]
        cases hterm : evaluate_terminal b cp with
        | some terminal => rfl
        | none =>
          have hongoing : check_outcome b = none :=
            (evaluate_terminal_eq_none_iff b cp).mp hterm
          have hsum : boardSum b ≤ 24 := boardSum_lt_of_ongoing b hongoing
          have hchild : ∀ mv ∈ get_possible_moves b, ∀ cp' : Nat,
              minimax_go g1 (apply_move b mv) cp' (d + 1) md =
              minimax_go g2 (apply_move b mv) cp' (d + 1) md := by
            intro mv hmv cp'
            have hlt := boardSum_lt_apply b mv hmv
            have hle := boardSum_le (apply_move b mv)
            exact ih g2 _ cp' (d + 1) md (by omega) (by omega)
          by_cases hcp : cp = 1
          · simp only [hcp, if_true]
            congr 1
            exact List.map_congr_left fun mv hmv => hchild mv hmv 2
          · simp only [hcp, if_false]
            congr 1
            exact List.map_congr_left fun mv hmv => hchild mv hmv 1
      · simp only [if_true]

/-- **Faithfulness of the fuel encoding.** `minimax_score` satisfies
exactly the recurrence of the Python `minimax_score`: depth cutoff first,
then terminal evaluation scaled by `MAX_GAME_DEPTH - depth`, then the
maximizing / minimizing fold with early break over the child scores. -/
theorem minimax_score_spec (b : Board) (cp d : Nat) (md : Option Nat) :
    minimax_score b cp d md =
      if depth_cutoff md d then .fin 0
      else
        match evaluate_terminal b cp with
        | some terminal => .fin (terminal * ((MAX_GAME_DEPTH : Int) - d))
        | none =>
          if cp = 1 then
            pyMaxLoop .ninf ((get_possible_moves b).map fun m =>
              minimax_score (apply_move b m) 2 (d + 1) md)
          else
            pyMinLoop .pinf ((get_possible_moves b).map fun m =>
              minimax_score (apply_move b m) 1 (d + 1) md) := by
  show minimax_go (27 + 1) b cp d md = _
  rw [minimax_go_succ 27]
  cases hcut : depth_cutoff md d
  · simp only [Bool.false_eq_true, if_false]
    cases hterm : evaluate_terminal b cp with
    | some terminal => rfl
    | none =>
      have hongoing : check_outcome b = none :=
        (evaluate_terminal_eq_none_iff b cp).mp hterm
      have hchild : ∀ mv ∈ get_possible_moves b, ∀ cp' : Nat,
          minimax_go 27 (apply_move b mv) cp' (d + 1) md =
          minimax_score (apply_move b mv) cp' (d + 1) md := by
        intro mv hmv cp'
        have hlt := boardSum_lt_apply b mv hmv
        have hsum : boardSum b ≤ 24 := boardSum_lt_of_ongoing b hongoing
        exact minimax_go_gas_irrelevant 27 28 _ cp' (d + 1) md
          (by omega) (by omega)
      by_cases hcp : cp = 1
      · simp only [hcp, if_true]
        have hmap : List.map (fun m => minimax_go 27 (apply_move b m) 2
              (d + 1) md) (get_possible_moves b) =
            List.map (fun m => minimax_score (apply_move b m) 2
              (d + 1) md) (get_possible_moves b) :=
          List.map_congr_left fun mv hmv => hchild mv hmv 2
        rw [hmap]
      · simp only [hcp, if_false]
        have hmap : List.map (fun m => minimax_go 27 (apply_move b m) 1
              (d + 1) md) (get_possible_moves b) =
            List.map (fun m => minimax_score (apply_move b m) 1
              (d + 1) md) (get_possible_moves b) :=
          List.map_congr_left fun mv hmv => hchild mv hmv 1
        rw [hmap]
  · show XScore.fin 0 = XScore.fin 0
    rfl

/-!
## The search never returns an infinity

`minimax_score` starts its folds at `-inf` / `+inf`; they can only be
returned if an ongoing board had no legal move. But an ongoing board
always has a legal move (`get_possible_moves_ne_nil`), so every search
value is a finite integer.
-/

/-- The maximizing fold started at a finite score stays finite. -/
theorem pyMaxLoop_fin_acc (l : List XScore)
    (hl : ∀ s ∈ l, ∃ v : Int, s = .fin v) :
    ∀ v0 : Int, ∃ v : Int, pyMaxLoop (.fin v0) l = .fin v := by
  induction l with
  | nil => exact fun v0 => ⟨v0, rfl⟩
  | cons s rest ih =>
    intro v0
    obtain ⟨w, rfl⟩ := hl s (List.mem_cons_self s rest)
    have hrest : ∀ s ∈ rest, ∃ v : Int, s = .fin v := fun s hs =>
      hl s (List.mem_cons_of_mem _ hs)
    unfold pyMaxLoop
    split_ifs with h1 h2
    · exact ⟨1, by rw [h2]⟩
    · exact ih hrest w
    · exact ih hrest v0

/-- The maximizing fold of a nonempty list of finite scores started at
`-inf` returns a finite score. -/
theorem pyMaxLoop_ninf_fin (l : List XScore) (hne : l ≠ [])
    (hl : ∀ s ∈ l, ∃ v : Int, s = .fin v) :
    ∃ v : Int, pyMaxLoop .ninf l = .fin v := by
  cases l with
  | nil => exact absurd rfl hne
  | cons s rest =>
    obtain ⟨w, rfl⟩ := hl s (List.mem_cons_self s rest)
    have hrest : ∀ s ∈ rest, ∃ v : Int, s = .fin v := fun s hs =>
      hl s (List.mem_cons_of_mem _ hs)
    unfold pyMaxLoop
    have hlt : XScore.lt .ninf (.fin w) = true := rfl
    rw [hlt]
    simp only [if_true]
    split_ifs with h1
    · exact ⟨1, by rw [h1]⟩
    · exact pyMaxLoop_fin_acc rest hrest w

/-- The minimizing fold started at a finite score stays finite. -/
theorem pyMinLoop_fin_acc (l : List XScore)
    (hl : ∀ s ∈ l, ∃ v : Int, s = .fin v) :
    ∀ v0 : Int, ∃ v : Int, pyMinLoop (.fin v0) l = .fin v := by
  induction l with
  | nil => exact fun v0 => ⟨v0, rfl⟩
  | cons s rest ih =>
    intro v0
    obtain ⟨w, rfl⟩ := hl s (List.mem_cons_self s rest)
    have hrest : ∀ s ∈ rest, ∃ v : Int, s = .fin v := fun s hs =>
      hl s (List.mem_cons_of_mem _ hs)
    unfold pyMinLoop
    split_ifs with h1 h2
    · exact ⟨-1, by rw [h2]⟩
    · exact ih hrest w
    · exact ih hrest v0

/-- The minimizing fold of a nonempty list of finite scores started at
`+inf` returns a finite score. -/
theorem pyMinLoop_pinf_fin (l : List XScore) (hne : l ≠ [])
    (hl : ∀ s ∈ l, ∃ v : Int, s = .fin v) :
    ∃ v : Int, pyMinLoop .pinf l = .fin v := by
  cases l with
  | nil => exact absurd rfl hne
  | cons s rest =>
    obtain ⟨w, rfl⟩ := hl s (List.mem_cons_self s rest)
    have hrest : ∀ s ∈ rest, ∃ v : Int, s = .fin v := fun s hs =>
      hl s (List.mem_cons_of_mem _ hs)
    unfold pyMinLoop
    have hlt : XScore.lt (.fin w) .pinf = true := rfl
    rw [hlt]
    simp only [if_true]
    split_ifs with h1
    · exact ⟨-1, by rw [h1]⟩
    · exact pyMinLoop_fin_acc rest hrest w

/-- With sufficient fuel, `minimax_go` always returns a finite score. -/
theorem minimax_go_fin :
    ∀ gas b cp d md, 27 - boardSum b < gas →
      ∃ v : Int, minimax_go gas b cp d md = .fin v := by
  intro gas
  induction gas with
  | zero => intro b cp d md h; omega
  | succ gas ih =>
    intro b cp d md h
    rw [minimax_go_succ gas]
    cases hcut : depth_cutoff md d
    · simp only [Bool.false_eq_true, if_false]
      cases hterm : evaluate_terminal b cp with
      | some terminal => exact ⟨terminal * ((MAX_GAME_DEPTH : Int) - d), rfl⟩
      | none =>
        have hongoing : check_outcome b = none :=
          (evaluate_terminal_eq_none_iff b cp).mp hterm
        have hsum : boardSum b ≤ 24 := boardSum_lt_of_ongoing b hongoing
        have hne : get_possible_moves b ≠ [] :=
          get_possible_moves_ne_nil b hongoing
        have hchild : ∀ (cp' : Nat) (s : XScore),
            s ∈ (get_possible_moves b).map (fun m =>
              minimax_go gas (apply_move b m) cp' (d + 1) md) →
            ∃ v : Int, s = .fin v := by
          intro cp' s hs
          obtain ⟨mv, hmv, rfl⟩ := List.mem_map.mp hs
          have hlt := boardSum_lt_apply b mv hmv
          exact ih _ cp' (d + 1) md (by omega)
        by_cases hcp : cp = 1
        · simp only [hcp, if_true]
          exact pyMaxLoop_ninf_fin _ (by simpa using hne) (hchild 2)
        · simp only [hcp, if_false]
          exact pyMinLoop_pinf_fin _ (by simpa using hne) (hchild 1)
    · exact ⟨0, by simp⟩

/-- `minimax_score` always returns a finite score: the `-inf` / `+inf`
loop initializers never escape. -/
theorem minimax_score_fin (b : Board) (cp d : Nat) (md : Option Nat) :
    ∃ v : Int, minimax_score b cp d md = .fin v :=
  minimax_go_fin 28 b cp d md (by omega)

/-!
## Claim C9: `get_best_move` on ongoing positions

`get_best_move(board, history)` of `trimatch.py` picks a uniformly random
legal move on the first move of the game, and otherwise scans the
(shuffled) legal moves keeping the best-scoring one. We model the two
random effects by a caller-supplied list: the random choice is the head
of a caller-chosen permutation of the legal moves, and the shuffled scan
order is a caller-chosen permutation.
-/

/-- The selection loop of `get_best_move`: keep the move whose child
score is strictly better than everything seen so far. -/
def get_best_move_loop (b : Board) (md : Option Nat) :
    List Move → XScore → Option Move → Option Move
  | [], _, best_move => best_move
  | mv :: rest, best, best_move =>
    let score := minimax_score (apply_move b mv) 2 0 md
    if best.lt score then get_best_move_loop b md rest score (some mv)
    else get_best_move_loop b md rest best best_move

/-- `get_best_move(board, history)`: on an empty history pick the head of
the caller's permutation (modelling `random.choice`); otherwise scan the
caller's permutation (modelling `random.shuffle`) starting from
`best = -inf`, `best_move = None`. -/
def get_best_move (b : Board) (history : List (Nat × Move))
    (shuffled : List Move) (md : Option Nat) : Option Move :=
  if history.isEmpty then shuffled.head?
  else get_best_move_loop b md shuffled .ninf none

/-- Once the selection loop holds a move, it never drops it. -/
theorem get_best_move_loop_some (b : Board) (md : Option Nat) :
    ∀ (l : List Move) (best : XScore) (mv0 : Move),
      get_best_move_loop b md l best (some mv0) ≠ none := by
  intro l
  induction l with
  | nil => intro best mv0 h; exact Option.noConfusion h
  | cons mv rest ih =>
    intro best mv0
    unfold get_best_move_loop
    dsimp only
    split_ifs with h1
    · exact ih _ mv
    · exact ih _ mv0

/-- The selection loop started at `-inf` on a nonempty move list returns
a move: the first finite child score beats `-inf`. -/
theorem get_best_move_loop_ne_none (b : Board) (md : Option Nat)
    (l : List Move) (hne : l ≠ []) :
    get_best_move_loop b md l .ninf none ≠ none := by
  cases l with
  | nil => exact absurd rfl hne
  | cons mv rest =>
    unfold get_best_move_loop
    dsimp only
    obtain ⟨v, hv⟩ := minimax_score_fin (apply_move b mv) 2 0 md
    rw [hv]
    have hlt : XScore.lt .ninf (.fin v) = true := rfl
    rw [hlt]
    simp only [if_true]
    exact get_best_move_loop_some b md rest (.fin v) mv

/-- **C9.** On any board satisfying the per-rank ≤ 3 invariant that
`check_outcome` classifies as ongoing, `get_possible_moves` is nonempty;
consequently `minimax_score` never returns one of its `-inf` / `+inf`
initializers (it always returns a finite integer), and `get_best_move`
never returns `None` — whichever permutation of the legal moves the
random shuffle (or the random opening choice) produced. -/
theorem ongoing_board_search_total (b : Board)
    (hinv : ∀ t : Tile, count_tile b t ≤ 3)
    (hongoing : check_outcome b = none) :
    get_possible_moves b ≠ []
    ∧ (∀ cp d md, ∃ v : Int, minimax_score b cp d md = .fin v)
    ∧ (∀ (history : List (Nat × Move)) (shuffled : List Move)
        (md : Option Nat), shuffled.Perm (get_possible_moves b) →
        get_best_move b history shuffled md ≠ none) := by
  have hne := get_possible_moves_ne_nil b hongoing
  refine ⟨hne, fun cp d md => minimax_score_fin b cp d md, ?_⟩
  intro history shuffled md hperm
  have hsne : shuffled ≠ [] := by
    intro h
    rw [h] at hperm
    exact hne hperm.nil_eq.symm
  unfold get_best_move
  split_ifs with hh
  · cases shuffled with
    | nil => exact absurd rfl hsne
    | cons mv rest => simp
  · exact get_best_move_loop_ne_none b md shuffled hsne

/-- **C9 witness.** The empty board satisfies the invariant and is
ongoing; the claim's conclusions hold there. -/
theorem ongoing_board_search_total_witness :
    get_possible_moves empty_board ≠ []
    ∧ (∀ cp d md, ∃ v : Int, minimax_score empty_board cp d md = .fin v)
    ∧ (∀ (history : List (Nat × Move)) (shuffled : List Move)
        (md : Option Nat),
        shuffled.Perm (get_possible_moves empty_board) →
        get_best_move empty_board history shuffled md ≠ none) :=
  ongoing_board_search_total empty_board (by decide) (by decide)

/-!
## Claim C3: terminal evaluation and the `(15 - depth)` scaling

The depth cutoff is tested *before* the terminal check, so a terminal
board evaluated at `depth ≥ AI_MAX_DEPTH` scores 0, not `±(15 - depth)`;
and at `depth ≥ 15` the factor `(15 - depth)` is no longer positive, so a
Win by Player 1 does not score positively there. The signs and the
scaling hold exactly when the cutoff does not fire and `depth < 15`.
-/

/-- A terminal board: Player 1 has completed a row of three Nobles. -/
def winRowBoard : Board :=
  ⟨[some .n, some .n, some .n,
    none, none, none, none, none, none], rfl⟩

/-- **C3 counterexample.** `winRowBoard` is terminal with outcome Win and
Player 1 as last mover (`current_player = 2`), yet `minimax_score` at
depth 1 under the default depth limit 1 returns 0 (the cutoff is checked
before the terminal test), and at depth 20 in unbounded mode it returns
`-5 = 1 * (15 - 20)`, which is not strictly positive. -/
theorem minimax_terminal_not_always_positive :
    check_outcome winRowBoard = some .win
    ∧ minimax_score winRowBoard 2 1 (some 1) = .fin 0
    ∧ minimax_score winRowBoard 2 20 none = .fin (-5) := by
  decide

/-- **C3 amended.** Whenever the depth cutoff does not fire and
`depth < 15`, `minimax_score` on a terminal board returns the raw ±1
scaled by `MAX_GAME_DEPTH - depth = 15 - depth`: strictly positive for a
Win with Player 1 as last mover (`current_player = 2`), strictly negative
for a Loss by Player 1, and exactly 0 for a Draw; symmetrically, with
Player 2 as last mover (`current_player = 1`) a Win scores strictly
negative, a Loss strictly positive, and a Draw exactly 0. -/
theorem minimax_terminal_signs (b : Board) (d : Nat) (md : Option Nat)
    (hcut : depth_cutoff md d = false) (hd : d < 15) :
    (check_outcome b = some .win →
      minimax_score b 2 d md = .fin ((15 : Int) - d)
      ∧ (0 : Int) < (15 : Int) - d)
    ∧ (check_outcome b = some .loss →
      minimax_score b 2 d md = .fin ((d : Int) - 15)
      ∧ ((d : Int) - 15) < 0)
    ∧ (check_outcome b = some .draw →
      minimax_score b 2 d md = .fin 0)
    ∧ (check_outcome b = some .win →
      minimax_score b 1 d md = .fin ((d : Int) - 15)
      ∧ ((d : Int) - 15) < 0)
    ∧ (check_outcome b = some .loss →
      minimax_score b 1 d md = .fin ((15 : Int) - d)
      ∧ (0 : Int) < (15 : Int) - d)
    ∧ (check_outcome b = some .draw →
      minimax_score b 1 d md = .fin 0) := by
  have hpos : (0 : Int) < (15 : Int) - d := by omega
  have hneg : ((d : Int) - 15) < 0 := by omega
  refine ⟨fun hw => ⟨?_, hpos⟩, fun hl => ⟨?_, hneg⟩, fun hdr => ?_,
    fun hw => ⟨?_, hneg⟩, fun hl => ⟨?_, hpos⟩, fun hdr => ?_⟩ <;>
    · rw [minimax_score_spec, hcut]
      simp only [Bool.false_eq_true, if_false]
      unfold evaluate_terminal
      first
        | rw [hw] | rw [hl] | rw [hdr]
      show XScore.fin _ = XScore.fin _
      congr 1
      show (_ : Int) * ((15 : Int) - (d : Int)) = _
      try simp only [if_true, if_false]
      try norm_num
      try ring

/-- **C3 amended, witness.** The amended statement at `winRowBoard`,
depth 0, unbounded mode. -/
theorem minimax_terminal_signs_witness :
    (check_outcome winRowBoard = some .win →
      minimax_score winRowBoard 2 0 none = .fin ((15 : Int) - (0 : Nat))
      ∧ (0 : Int) < (15 : Int) - (0 : Nat))
    ∧ (check_outcome winRowBoard = some .loss →
      minimax_score winRowBoard 2 0 none = .fin (((0 : Nat) : Int) - 15)
      ∧ (((0 : Nat) : Int) - 15) < 0)
    ∧ (check_outcome winRowBoard = some .draw →
      minimax_score winRowBoard 2 0 none = .fin 0)
    ∧ (check_outcome winRowBoard = some .win →
      minimax_score winRowBoard 1 0 none = .fin (((0 : Nat) : Int) - 15)
      ∧ (((0 : Nat) : Int) - 15) < 0)
    ∧ (check_outcome winRowBoard = some .loss →
      minimax_score winRowBoard 1 0 none = .fin ((15 : Int) - (0 : Nat))
      ∧ (0 : Int) < (15 : Int) - (0 : Nat))
    ∧ (check_outcome winRowBoard = some .draw →
      minimax_score winRowBoard 1 0 none = .fin 0) :=
  minimax_terminal_signs winRowBoard 0 none rfl (by decide)

/-!
## Claim C5: cache entries are only valid for one `AI_MAX_DEPTH`

`minimax_score` is memoized (`lru_cache`) on `(board_key, player, depth)`
only — the active `AI_MAX_DEPTH` is not part of the key. The following
board shows that the value genuinely depends on `AI_MAX_DEPTH`, so a
cached entry computed under one depth limit is wrong under another. In
`trimatch.py`, `level_up` raises `AI_MAX_DEPTH` without clearing the
cache, the `d#` command changes it without clearing the cache, and the
`h` (hint) handler runs an unbounded search against the shared cache and
restores the limit, again without clearing; in `trimatch_gui.py` the
level-up and difficulty buttons do clear the cache, but the Hint button
does not.
-/

/-- An ongoing board with a single legal move (Noble on the top-left
cell), which immediately ends the game. -/
def staleCacheBoard : Board :=
  ⟨[none, some .n, some .n,
    some .k, some .m, some .k,
    some .m, some .m, some .k], rfl⟩

/-- **C5 evidence.** On `staleCacheBoard` with Player 1 to move, the
search value under the default depth limit 1 is 0, while the unbounded
search value is −14: the same cache key would hold two different correct
values under the two settings, so reusing an entry across a difficulty
change or across the hint's unbounded mode returns a score computed under
the wrong `maxDepth`. -/
theorem minimax_score_depends_on_depth_limit :
    check_outcome staleCacheBoard = none
    ∧ minimax_score staleCacheBoard 1 0 (some 1) = .fin 0
    ∧ minimax_score staleCacheBoard 1 0 none = .fin (-14)
    ∧ (XScore.fin 0 : XScore) ≠ .fin (-14) := by
  decide

/-!
## Claim C2: `get_possible_moves` membership and the pool invariant
-/

/-- Setting one cell raises a count by at most the indicator of the new
value; all other counts never increase. -/
theorem count_set_le (l : List Cell) :
    ∀ (i : Nat) (v x : Cell),
      (l.set i v).count x ≤ l.count x + (if v = x then 1 else 0) := by
  induction l with
  | nil =>
    intro i v x
    simp only [List.set_nil]
    split_ifs <;> omega
  | cons y t ih =>
    intro i v x
    cases i with
    | zero =>
      simp only [List.set_cons_zero, List.count_cons]
      split_ifs <;> simp_all <;> omega
    | succ j =>
      simp only [List.set_cons_succ, List.count_cons]
      have := ih j v x
      split_ifs at * <;> omega

/-- A move passing the legality test has fewer than 3 copies of its tile
on the board. -/
theorem legalb_count_lt (b : Board) (mv : Move) (h : legalb b mv = true) :
    count_tile b mv.t < 3 := by
  unfold legalb at h
  cases hget : getCell b mv.r mv.c <;> rw [hget] at h
  · exact of_decide_eq_true h
  · exact (of_decide_eq_true h).2

/-- Applying a legal move preserves the per-rank ≤ 3 invariant: the
placed tile had fewer than 3 copies before the move, and no other count
can increase. -/
theorem apply_move_preserves_inv (b : Board) (mv : Move)
    (hinv : ∀ t : Tile, count_tile b t ≤ 3)
    (hm : mv ∈ get_possible_moves b) :
    ∀ t : Tile, count_tile (apply_move b mv) t ≤ 3 := by
  intro t
  have hleg : legalb b mv = true := (List.mem_filter.mp hm).2
  have hcnt := legalb_count_lt b mv hleg
  have hset := count_set_le b.val (3 * mv.r.val + mv.c.val)
    (some mv.t) (some t)
  have hgoal : count_tile (apply_move b mv) t =
      (b.val.set (3 * mv.r.val + mv.c.val) (some mv.t)).count (some t) := rfl
  rw [hgoal]
  by_cases ht : t = mv.t
  · subst ht
    rw [if_pos rfl] at hset
    unfold count_tile at hcnt
    omega
  · rw [if_neg (by simpa using fun h => ht h.symm)] at hset
    have := hinv t
    unfold count_tile at this
    omega

/-- **C2.** On a board satisfying the per-rank ≤ 3 invariant, a move is in
`get_possible_moves` exactly when its target cell is empty and fewer than
3 copies of its tile are on the board, or its target holds a strictly
lower rank and fewer than 3 copies of its tile are on the board; and
applying any returned move leaves at most 3 copies of every rank. -/
theorem get_possible_moves_spec (b : Board)
    (hinv : ∀ t : Tile, count_tile b t ≤ 3) (mv : Move) :
    (mv ∈ get_possible_moves b ↔
      (getCell b mv.r mv.c = none ∧ count_tile b mv.t < 3)
      ∨ (∃ target : Tile, getCell b mv.r mv.c = some target
          ∧ target.val < mv.t.val ∧ count_tile b mv.t < 3))
    ∧ (mv ∈ get_possible_moves b →
        ∀ t : Tile, count_tile (apply_move b mv) t ≤ 3) := by
  constructor
  · unfold get_possible_moves
    rw [List.mem_filter]
    have hall := mem_allCandidates mv
    simp only [hall, true_and]
    unfold legalb
    cases hget : getCell b mv.r mv.c
    · simp [decide_eq_true_eq]
    · simp [decide_eq_true_eq]
  · exact apply_move_preserves_inv b mv hinv

/-- **C2 witness.** The characterization and the preservation at the
empty board for the move placing a Noble on the top-left cell. -/
theorem get_possible_moves_spec_witness :
    (Move.mk .n 0 0 ∈ get_possible_moves empty_board ↔
      (getCell empty_board 0 0 = none
        ∧ count_tile empty_board .n < 3)
      ∨ (∃ target : Tile, getCell empty_board 0 0 = some target
          ∧ target.val < Tile.val .n
          ∧ count_tile empty_board .n < 3))
    ∧ (Move.mk .n 0 0 ∈ get_possible_moves empty_board →
        ∀ t : Tile, count_tile (apply_move empty_board (Move.mk .n 0 0)) t ≤ 3) :=
  get_possible_moves_spec empty_board (by decide) (Move.mk .n 0 0)

/-!
## Claims C7 and C10: legal play from the empty board

`ReachNT b L` says that `b` arises from the empty board by a sequence of
`L` legal moves in which no position before the last move is terminal —
exactly the game traces the main loops of both programs can produce
(they stop as soon as `check_outcome` reports a result).
-/

/-- Boards reachable from the empty board by `L` legal moves, every
position before a move being non-terminal. -/
inductive ReachNT : Board → Nat → Prop where
  | base : ReachNT empty_board 0
  | step {b : Board} {L : Nat} {mv : Move} (h : ReachNT b L)
      (hongoing : check_outcome b = none)
      (hmv : mv ∈ get_possible_moves b) :
      ReachNT (apply_move b mv) (L + 1)

/-- Reachable boards satisfy the per-rank ≤ 3 invariant. -/
theorem reachNT_inv {b : Board} {L : Nat} (h : ReachNT b L) :
    ∀ t : Tile, count_tile b t ≤ 3 := by
  induction h with
  | base => decide
  | step h hongoing hmv ih => exact apply_move_preserves_inv _ _ ih hmv

/-- Each move strictly increases the board sum, so a reachable board's
sum is at least the number of moves played. -/
theorem reachNT_le_boardSum {b : Board} {L : Nat} (h : ReachNT b L) :
    L ≤ boardSum b := by
  induction h with
  | base => exact Nat.zero_le _
  | step h hongoing hmv ih =>
    have := boardSum_lt_apply _ _ hmv
    omega

/-- The board sum equals `#Nobles + 2·#Knights + 3·#Mystics`. -/
theorem sum_map_cellVal_eq_counts (l : List Cell) :
    (l.map cellVal).sum =
      l.count (some .n) + 2 * l.count (some .k) + 3 * l.count (some .m) := by
  induction l with
  | nil => simp
  | cons x t ih =>
    rcases x with _ | tt
    · simp [List.count_cons, cellVal]
      omega
    · cases tt <;>
      · simp [List.count_cons, cellVal, Tile.val]
        omega

/-- An ongoing board within the pool invariant sums to at most 17: at
most 8 cells are occupied, at most 3 by Mystics and at most 3 by
Knights. -/
theorem boardSum_le_17 (b : Board) (hongoing : check_outcome b = none)
    (hinv : ∀ t : Tile, count_tile b t ≤ 3) : boardSum b ≤ 17 := by
  obtain ⟨-, -, hfull⟩ := (check_outcome_eq_none_iff b).mp hongoing
  have hnone := none_mem_of_not_boardFull b hfull
  have hpos : 0 < b.val.count none := List.count_pos_iff.mpr hnone
  have hpart := counts_partition b.val
  rw [b.2] at hpart
  have hsum := sum_map_cellVal_eq_counts b.val
  have hn := hinv .n
  have hk := hinv .k
  have hm := hinv .m
  unfold count_tile at hn hk hm
  unfold boardSum
  omega

/-- **C7 amended.** Every legal game from the empty board in which no
position before the last move is terminal has at most 18 moves (so
`MAX_GAME_DEPTH = 15` is *not* larger than every reachable game length,
and the scaling factor `15 - depth` can reach 0 and below at terminal
positions of the deepest games). -/
theorem reachNT_length_le {b : Board} {L : Nat} (h : ReachNT b L) :
    L ≤ 18 := by
  cases h with
  | base => omega
  | step h hongoing hmv =>
    have h1 := reachNT_le_boardSum h
    have h2 := boardSum_le_17 _ hongoing (reachNT_inv h)
    omega

/-- Replay a move list from a board (`apply_move` folded). -/
def run (b : Board) (ms : List Move) : Board := ms.foldl apply_move b

/-- Check that a move list is playable: before each move the position is
non-terminal and the move is legal. -/
def runOk (b : Board) : List Move → Bool
  | [] => true
  | mv :: rest =>
    decide (check_outcome b = none) && decide (mv ∈ get_possible_moves b)
      && runOk (apply_move b mv) rest

/-- A playable move list yields a `ReachNT` derivation. -/
theorem reachNT_of_runOk :
    ∀ (ms : List Move) (b : Board) (L : Nat), ReachNT b L →
      runOk b ms = true → ReachNT (run b ms) (L + ms.length) := by
  intro ms
  induction ms with
  | nil => intro b L h _; exact h
  | cons mv rest ih =>
    intro b L h hok
    unfold runOk at hok
    simp only [Bool.and_eq_true, decide_eq_true_eq] at hok
    obtain ⟨⟨hongoing, hmv⟩, hrest⟩ := hok
    have hstep := ReachNT.step h hongoing hmv
    have := ih (apply_move b mv) (L + 1) hstep hrest
    simpa [run, List.length_cons, Nat.add_assoc, Nat.add_comm,
      Nat.add_left_comm] using this

/-- An 18-move legal game: three cells are upgraded Noble → Knight →
Mystic, three more Noble → Knight, and the last Noble placement completes
a Noble-Knight-Mystic middle row, ending the game at move 18. -/
def game18Moves : List Move :=
  [ ⟨.n, 0, 0⟩, ⟨.k, 0, 0⟩, ⟨.m, 0, 0⟩,
    ⟨.n, 0, 1⟩, ⟨.k, 0, 1⟩, ⟨.m, 0, 1⟩,
    ⟨.n, 0, 2⟩, ⟨.k, 0, 2⟩,
    ⟨.n, 1, 0⟩, ⟨.k, 1, 0⟩, ⟨.m, 1, 0⟩,
    ⟨.n, 1, 2⟩, ⟨.k, 1, 2⟩,
    ⟨.n, 2, 0⟩, ⟨.k, 2, 0⟩,
    ⟨.n, 2, 1⟩,
    ⟨.n, 2, 2⟩,
    ⟨.n, 1, 1⟩ ]

/-- The 18-move game is playable and reaches its final board. -/
theorem reach_run18 : ReachNT (run empty_board game18Moves) 18 :=
  reachNT_of_runOk game18Moves empty_board 0 .base (by decide)

/-- **C7 counterexample.** A legal game from the empty board with no
terminal position before the last move that lasts 18 moves — not fewer
than 15. `MAX_GAME_DEPTH = 15` is not strictly larger than every
reachable game length. -/
theorem game_of_18_moves_exists :
    ReachNT (run empty_board game18Moves) 18 ∧ ¬ (18 < 15) :=
  ⟨reach_run18, by decide⟩

/-- **C7 amended, witness.** The amended bound applied to the 18-move
game. -/
theorem reachNT_length_le_witness : (18 : Nat) ≤ 18 :=
  reachNT_length_le reach_run18

/-- The five moves reaching `bothBoard`: Nobles on the top row's middle
and right cells, a Knight and a Mystic down the first column, and
finally a Noble on the shared corner, completing the all-Noble top row
and the Noble-Knight-Mystic first column with a single move. -/
def bothBoardMoves : List Move :=
  [ ⟨.n, 0, 1⟩, ⟨.n, 0, 2⟩, ⟨.k, 1, 0⟩, ⟨.m, 2, 0⟩, ⟨.n, 0, 0⟩ ]

/-- `bothBoard` (the board satisfying the Win and the Loss condition at
once, see Claim C6 above) is reachable by legal play in five moves, no
position before the last move being terminal. -/
theorem reach_both_board : ReachNT bothBoard 5 := by
  have h := reachNT_of_runOk bothBoardMoves empty_board 0 .base (by decide)
  have heq : run empty_board bothBoardMoves = bothBoard := by decide
  rw [heq] at h
  exact h

/-- All tile lists of length `s` with exactly `a` Nobles, `bq` Knights
and `c` Mystics (generated with count budgets, 1680 lists for
`genT 9 3 3 3`). -/
def genT : Nat → Nat → Nat → Nat → List (List Tile)
  | 0, _, _, _ => [[]]
  | s + 1, a, bq, c =>
    (if a = 0 then [] else
      (genT s (a - 1) bq c).map fun l => Tile.n :: l) ++
    ((if bq = 0 then [] else
      (genT s a (bq - 1) c).map fun l => Tile.k :: l) ++
    (if c = 0 then [] else
      (genT s a bq (c - 1)).map fun l => Tile.m :: l))

/-- Every tile list appears in `genT` at its own length and counts. -/
theorem mem_genT : ∀ (l : List Tile) (a bq c : Nat),
    l.count .n = a → l.count .k = bq → l.count .m = c →
    l ∈ genT l.length a bq c := by
  intro l
  induction l with
  | nil =>
    intro a bq c _ _ _
    simp [genT]
  | cons t rest ih =>
    intro a bq c ha hb hc
    cases t
    case n =>
      simp only [List.count_cons, beq_self_eq_true, if_true, beq_iff_eq,
        reduceCtorEq, if_false] at ha hb hc
      subst ha hb hc
      rw [List.length_cons]
      show _ ∈ genT (rest.length + 1) _ _ _
      unfold genT
      refine List.mem_append.mpr (Or.inl ?_)
      rw [if_neg (by omega)]
      rw [Nat.add_sub_cancel]
      exact List.mem_map_of_mem _ (ih _ _ _ rfl rfl rfl)
    case k =>
      simp only [List.count_cons, beq_self_eq_true, if_true, beq_iff_eq,
        reduceCtorEq, if_false] at ha hb hc
      subst ha hb hc
      rw [List.length_cons]
      show _ ∈ genT (rest.length + 1) _ _ _
      unfold genT
      refine List.mem_append.mpr (Or.inr (List.mem_append.mpr (Or.inl ?_)))
      rw [if_neg (by omega)]
      rw [Nat.add_sub_cancel]
      exact List.mem_map_of_mem _ (ih _ _ _ rfl rfl rfl)
    case m =>
      simp only [List.count_cons, beq_self_eq_true, if_true, beq_iff_eq,
        reduceCtorEq, if_false] at ha hb hc
      subst ha hb hc
      rw [List.length_cons]
      show _ ∈ genT (rest.length + 1) _ _ _
      unfold genT
      refine List.mem_append.mpr (Or.inr (List.mem_append.mpr (Or.inr ?_)))
      rw [if_neg (by omega)]
      rw [Nat.add_sub_cancel]
      exact List.mem_map_of_mem _ (ih _ _ _ rfl rfl rfl)

/-- Whether three tiles end the game on a line: all identical (Win test)
or pairwise distinct — which for three tiles of three kinds is exactly
one of each (Loss test). -/
def tline_ends (x y z : Tile) : Bool :=
  (x == y && y == z) || (x != y && y != z && x != z)

/-- Whether a full board, given as its 9 tiles in row-major order, has a
game-ending line (the 8 lines in the order of `linesOfList`). -/
def tlines_ends (tl : List Tile) : Bool :=
  tline_ends (tl.getD 0 .n) (tl.getD 1 .n) (tl.getD 2 .n) ||
  (tline_ends (tl.getD 0 .n) (tl.getD 3 .n) (tl.getD 6 .n) ||
  (tline_ends (tl.getD 3 .n) (tl.getD 4 .n) (tl.getD 5 .n) ||
  (tline_ends (tl.getD 1 .n) (tl.getD 4 .n) (tl.getD 7 .n) ||
  (tline_ends (tl.getD 6 .n) (tl.getD 7 .n) (tl.getD 8 .n) ||
  (tline_ends (tl.getD 2 .n) (tl.getD 5 .n) (tl.getD 8 .n) ||
  (tline_ends (tl.getD 0 .n) (tl.getD 4 .n) (tl.getD 8 .n) ||
   tline_ends (tl.getD 2 .n) (tl.getD 4 .n) (tl.getD 6 .n)))))))

set_option maxRecDepth 40000 in
/-- **Exhaustive check**: every full board holding exactly 3 Nobles,
3 Knights and 3 Mystics has a line that ends the game (all-identical or
one-of-each) — there is no drawn full board within the pool invariant. -/
theorem all_full_333_boards_end :
    ((genT 9 3 3 3).all tlines_ends) = true := by
  decide

/-- `tline_ends` on three tiles matches the Loss/Win line tests of
`check_outcome` on the corresponding occupied cells. -/
theorem tline_ends_iff :
    ∀ x y z : Tile,
      tline_ends x y z = true ↔
        LineFull [some x, some y, some z] ∧
          (LineMono [some x, some y, some z] ∨
            LineTriad [some x, some y, some z]) := by
  decide

/-- `getD` on a `map some` list wraps `getD` on the underlying list. -/
theorem getD_map_some :
    ∀ (tl : List Tile) (i : Nat), i < tl.length →
      (tl.map some).getD i none = some (tl.getD i Tile.n) := by
  intro tl
  induction tl with
  | nil => intro i hi; simp at hi
  | cons t rest ih =>
    intro i hi
    cases i with
    | zero => rfl
    | succ j => exact ih j (by simpa using hi)

/-- `linesOfList` written out. -/
theorem linesOfList_eq (l : List Cell) :
    linesOfList l =
      [ [l.getD 0 none, l.getD 1 none, l.getD 2 none],
        [l.getD 0 none, l.getD 3 none, l.getD 6 none],
        [l.getD 3 none, l.getD 4 none, l.getD 5 none],
        [l.getD 1 none, l.getD 4 none, l.getD 7 none],
        [l.getD 6 none, l.getD 7 none, l.getD 8 none],
        [l.getD 2 none, l.getD 5 none, l.getD 8 none],
        [l.getD 0 none, l.getD 4 none, l.getD 8 none],
        [l.getD 2 none, l.getD 4 none, l.getD 6 none] ] := rfl

/-- Every full board of exactly 3 Nobles, 3 Knights and 3 Mystics has a
line satisfying the Loss or the Win test of `check_outcome`. -/
theorem full_tl_has_ending (tl : List Tile) (hlen : tl.length = 9)
    (hmem : tl ∈ genT 9 3 3 3) :
    ∃ line ∈ linesOfList (tl.map some),
      LineFull line ∧ (LineMono line ∨ LineTriad line) := by
  have hend := List.all_eq_true.mp all_full_333_boards_end tl hmem
  have hg : ∀ i, i < 9 → (tl.map some).getD i none = some (tl.getD i .n) :=
    fun i hi => getD_map_some tl i (by rw [hlen]; exact hi)
  unfold tlines_ends at hend
  simp only [Bool.or_eq_true] at hend
  rcases hend with h | h | h | h | h | h | h | h
  · refine ⟨[(tl.map some).getD 0 none, (tl.map some).getD 1 none,
      (tl.map some).getD 2 none], ?_, ?_⟩
    · rw [linesOfList_eq]
      simp
    · rw [hg 0 (by omega), hg 1 (by omega), hg 2 (by omega)]
      exact (tline_ends_iff _ _ _).mp h
  · refine ⟨[(tl.map some).getD 0 none, (tl.map some).getD 3 none,
      (tl.map some).getD 6 none], ?_, ?_⟩
    · rw [linesOfList_eq]
      simp
    · rw [hg 0 (by omega), hg 3 (by omega), hg 6 (by omega)]
      exact (tline_ends_iff _ _ _).mp h
  · refine ⟨[(tl.map some).getD 3 none, (tl.map some).getD 4 none,
      (tl.map some).getD 5 none], ?_, ?_⟩
    · rw [linesOfList_eq]
      simp
    · rw [hg 3 (by omega), hg 4 (by omega), hg 5 (by omega)]
      exact (tline_ends_iff _ _ _).mp h
  · refine ⟨[(tl.map some).getD 1 none, (tl.map some).getD 4 none,
      (tl.map some).getD 7 none], ?_, ?_⟩
    · rw [linesOfList_eq]
      simp
    · rw [hg 1 (by omega), hg 4 (by omega), hg 7 (by omega)]
      exact (tline_ends_iff _ _ _).mp h
  · refine ⟨[(tl.map some).getD 6 none, (tl.map some).getD 7 none,
      (tl.map some).getD 8 none], ?_, ?_⟩
    · rw [linesOfList_eq]
      simp
    · rw [hg 6 (by omega), hg 7 (by omega), hg 8 (by omega)]
      exact (tline_ends_iff _ _ _).mp h
  · refine ⟨[(tl.map some).getD 2 none, (tl.map some).getD 5 none,
      (tl.map some).getD 8 none], ?_, ?_⟩
    · rw [linesOfList_eq]
      simp
    · rw [hg 2 (by omega), hg 5 (by omega), hg 8 (by omega)]
      exact (tline_ends_iff _ _ _).mp h
  · refine ⟨[(tl.map some).getD 0 none, (tl.map some).getD 4 none,
      (tl.map some).getD 8 none], ?_, ?_⟩
    · rw [linesOfList_eq]
      simp
    · rw [hg 0 (by omega), hg 4 (by omega), hg 8 (by omega)]
      exact (tline_ends_iff _ _ _).mp h
  · refine ⟨[(tl.map some).getD 2 none, (tl.map some).getD 4 none,
      (tl.map some).getD 6 none], ?_, ?_⟩
    · rw [linesOfList_eq]
      simp
    · rw [hg 2 (by omega), hg 4 (by omega), hg 6 (by omega)]
      exact (tline_ends_iff _ _ _).mp h

/-- `getD` agrees with `get` on in-range indices. -/
theorem getD_eq_get_of_lt (l : List Cell) :
    ∀ (i : Nat) (h : i < l.length), l.getD i none = l.get ⟨i, h⟩ := by
  induction l with
  | nil => intro i h; simp at h
  | cons x t ih =>
    intro i h
    cases i with
    | zero => rfl
    | succ j => exact ih j (by simpa using h)

/-- A full board has no empty cell in its cell list. -/
theorem boardFull_none_not_mem (b : Board) (h : BoardFull b) :
    none ∉ b.val := by
  intro hmem
  obtain ⟨⟨i, hi⟩, hget⟩ := List.mem_iff_get.mp hmem
  have h9 : i < 9 := by rw [← b.2]; exact hi
  have hcell := h ⟨i / 3, by omega⟩ ⟨i % 3, by omega⟩
  apply hcell
  show b.val.getD (3 * (i / 3) + i % 3) none = none
  have hidx : 3 * (i / 3) + i % 3 = i := by omega
  rw [hidx, getD_eq_get_of_lt b.val i hi, hget]

/-- A list of cells without empty cells is the image of a tile list of
the same length and counts. -/
theorem exists_tile_list (cl : List Cell) (h : none ∉ cl) :
    ∃ tl : List Tile, cl = tl.map some ∧ tl.length = cl.length
      ∧ ∀ t : Tile, tl.count t = cl.count (some t) := by
  induction cl with
  | nil => exact ⟨[], rfl, rfl, fun t => rfl⟩
  | cons x rest ih =>
    rcases x with _ | tt
    · exact absurd (List.mem_cons_self _ _) h
    · have hrest : none ∉ rest := fun hm => h (List.mem_cons_of_mem _ hm)
      obtain ⟨tl, rfl, hlen, hcount⟩ := ih hrest
      refine ⟨tt :: tl, rfl, by simp, fun t => ?_⟩
      simp only [List.count_cons, hcount t, beq_iff_eq, Option.some.injEq]

/-- `check_outcome` reports a draw exactly on full boards where no line
triggers the Loss or Win test. -/
theorem check_outcome_eq_draw_iff (b : Board) :
    check_outcome b = some .draw ↔
      ¬ (∃ line ∈ linesOf b, LineFull line ∧ LineTriad line) ∧
      ¬ (∃ line ∈ linesOf b, LineFull line ∧ LineMono line) ∧
      BoardFull b := by
  unfold check_outcome
  split_ifs with h1 h2 h3 <;> simp_all

/-- **C10.** No board reachable from the empty board by legal play (with
no terminal position before the last move) is classified as a draw: a
reachable full board holds exactly 3 tiles of each rank, and every such
board has an all-identical or one-of-each line, so the draw branches
marked "should never happen" are unreachable. -/
theorem reachNT_never_draw (b : Board) (L : Nat) (h : ReachNT b L) :
    check_outcome b ≠ some .draw := by
  intro hdraw
  obtain ⟨hc1, hc2, hfull⟩ := (check_outcome_eq_draw_iff b).mp hdraw
  have hinv := reachNT_inv h
  have hnone : none ∉ b.val := boardFull_none_not_mem b hfull
  obtain ⟨tl, hmap, hlen, hcount⟩ := exists_tile_list b.val hnone
  have hzero : b.val.count none = 0 := by
    rw [List.count_eq_zero]
    exact hnone
  have hpart := counts_partition b.val
  rw [b.2] at hpart
  have hn := hinv .n
  have hk := hinv .k
  have hm := hinv .m
  unfold count_tile at hn hk hm
  have h3n : tl.count .n = 3 := by rw [hcount]; omega
  have h3k : tl.count .k = 3 := by rw [hcount]; omega
  have h3m : tl.count .m = 3 := by rw [hcount]; omega
  have hlen9 : tl.length = 9 := by rw [hlen, b.2]
  have hmem : tl ∈ genT 9 3 3 3 := by
    have := mem_genT tl _ _ _ h3n h3k h3m
    rwa [hlen9] at this
  obtain ⟨line, hline, hfull', hmt⟩ := full_tl_has_ending tl hlen9 hmem
  rw [← hmap] at hline
  have hline' : line ∈ linesOf b := hline
  rcases hmt with hmono | htriad
  · exact hc2 ⟨line, hline', hfull', hmono⟩
  · exact hc1 ⟨line, hline', hfull', htriad⟩

/-- **C10 witness.** The empty board is reachable in 0 moves and is not
classified as a draw. -/
theorem reachNT_never_draw_witness :
    check_outcome empty_board ≠ some .draw :=
  reachNT_never_draw empty_board 0 .base

/-!
## Claim C4: the hint handlers (`h` in `trimatch.py`, Hint button in
`trimatch_gui.py`)

Both handlers refuse outside the human's turn of an ongoing game (the
GUI additionally allows hints any time in hotseat mode); both save
`AI_MAX_DEPTH`, set it to `None` (unbounded), score every legal human
move by `minimax_score` of the resulting position with Player 1 to move,
restore `AI_MAX_DEPTH`, take the minimum score (the human minimizes the
Player-1-centric score) and keep exactly the moves attaining it. They
differ in the report: the CLI distinguishes a forced win / forced draw /
unavoidable loss as the minimum is negative / zero / positive, while the
GUI has no zero branch and logs the unavoidable-loss message whenever
the minimum is not negative — including when it is exactly zero.
-/

/-- `x < y` is asymmetric. -/
theorem XScore.lt_asymm {x y : XScore} (h : x.lt y = true) :
    y.lt x = false := by
  cases x <;> cases y <;> simp_all [XScore.lt] <;> omega

/-- `x ≤ x`. -/
theorem XScore.le_refl (x : XScore) : x.le x = true := by
  cases x <;> simp [XScore.le, XScore.lt]

/-- `≤` (defined as the negation of the reversed `<`) is transitive. -/
theorem XScore.le_trans {x y z : XScore} (h1 : x.le y = true)
    (h2 : y.le z = true) : x.le z = true := by
  cases x <;> cases y <;> cases z <;> simp_all [XScore.le, XScore.lt] <;> omega

/-- `x < y` implies `x ≤ y`. -/
theorem XScore.le_of_lt {x y : XScore} (h : x.lt y = true) :
    x.le y = true := by
  cases x <;> cases y <;> simp_all [XScore.le, XScore.lt] <;> omega

/-- `¬ (y < x)` is `x ≤ y`. -/
theorem XScore.le_of_not_lt {x y : XScore} (h : y.lt x = false) :
    x.le y = true := by
  simp [XScore.le, h]

/-- Python's `min` over a list of scores (`min` raises on an empty
sequence; the `.pinf` default is never reached under this file's
theorems, whose hypotheses make the list nonempty). -/
def pyMin : List XScore → XScore
  | [] => .pinf
  | s :: rest => rest.foldl (fun acc x => if x.lt acc then x else acc) s

/-- The running minimum never exceeds its start. -/
theorem pyMinFold_le_acc :
    ∀ (l : List XScore) (acc : XScore),
      (l.foldl (fun a x => if x.lt a then x else a) acc).le acc = true := by
  intro l
  induction l with
  | nil => exact fun acc => XScore.le_refl acc
  | cons s rest ih =>
    intro acc
    show (rest.foldl _ (if s.lt acc then s else acc)).le acc = true
    split_ifs with h
    · exact XScore.le_trans (ih s) (XScore.le_of_lt h)
    · exact ih acc

/-- The running minimum is at most every scanned element. -/
theorem pyMinFold_le_mem :
    ∀ (l : List XScore) (acc x : XScore), x ∈ l →
      (l.foldl (fun a x => if x.lt a then x else a) acc).le x = true := by
  intro l
  induction l with
  | nil => intro acc x hx; cases hx
  | cons s rest ih =>
    intro acc x hx
    show (rest.foldl _ (if s.lt acc then s else acc)).le x = true
    rcases List.mem_cons.mp hx with rfl | hmem
    · split_ifs with h
      · exact pyMinFold_le_acc rest x
      · have hf : x.lt acc = false := by simpa using h
        exact XScore.le_trans (pyMinFold_le_acc rest acc)
          (XScore.le_of_not_lt hf)
    · exact ih _ x hmem

/-- The running minimum is the start or one of the elements. -/
theorem pyMinFold_attained :
    ∀ (l : List XScore) (acc : XScore),
      (l.foldl (fun a x => if x.lt a then x else a) acc) = acc ∨
      (l.foldl (fun a x => if x.lt a then x else a) acc) ∈ l := by
  intro l
  induction l with
  | nil => exact fun acc => Or.inl rfl
  | cons s rest ih =>
    intro acc
    show (rest.foldl _ (if s.lt acc then s else acc)) = acc ∨
      (rest.foldl _ (if s.lt acc then s else acc)) ∈ s :: rest
    split_ifs with h
    · rcases ih s with heq | hmem
      · right
        rw [heq]
        exact List.mem_cons_self s rest
      · right
        exact List.mem_cons_of_mem s hmem
    · rcases ih acc with heq | hmem
      · left
        exact heq
      · right
        exact List.mem_cons_of_mem s hmem

/-- `pyMin` of a nonempty list is a lower bound of the list. -/
theorem pyMin_le_mem (l : List XScore) (x : XScore) (hx : x ∈ l) :
    (pyMin l).le x = true := by
  cases l with
  | nil => cases hx
  | cons s rest =>
    rcases List.mem_cons.mp hx with rfl | hmem
    · exact pyMinFold_le_acc rest x
    · exact pyMinFold_le_mem rest s x hmem

/-- `pyMin` of a nonempty list is an element of the list. -/
theorem pyMin_mem (l : List XScore) (hne : l ≠ []) : pyMin l ∈ l := by
  cases l with
  | nil => exact absurd rfl hne
  | cons s rest =>
    show rest.foldl (fun a x => if x.lt a then x else a) s ∈ s :: rest
    rcases pyMinFold_attained rest s with heq | hmem
    · rw [heq]
      exact List.mem_cons_self s rest
    · exact List.mem_cons_of_mem s hmem

/-- The three verdicts the hint reports. -/
inductive HintVerdict where
  | forcedWin
  | forcedDraw
  | forcedLoss
deriving DecidableEq, Repr

/-- The data computed by the `h` handler. -/
structure HintOutput where
  suggestions : List (Move × XScore)
  best_score : XScore
  best_moves : List Move
  verdict : HintVerdict
deriving DecidableEq, Repr

/-- The body of the `h` handler: save `AI_MAX_DEPTH`, run with it set to
`None`, compute suggestions / best score / best moves / the reported
verdict, and restore the saved depth limit (returned as the second
component — the value of `AI_MAX_DEPTH` after the handler). -/
def hint_run (b : Board) (ai_max_depth : Option Nat) :
    HintOutput × Option Nat :=
  let old_max := ai_max_depth
  -- AI_MAX_DEPTH = None: every score below is computed unbounded
  let suggestions := (get_possible_moves b).map fun m =>
    (m, minimax_score (apply_move b m) 1 0 none)
  let best_score := pyMin (suggestions.map Prod.snd)
  let best_moves := (suggestions.filter fun p => p.2 == best_score).map
    Prod.fst
  let verdict :=
    if best_score.lt (.fin 0) then HintVerdict.forcedWin
    else if best_score = .fin 0 then HintVerdict.forcedDraw
    else HintVerdict.forcedLoss
  (⟨suggestions, best_score, best_moves, verdict⟩, old_max)

/-- The `h` command including its guard: refused (`none`) unless it is
Player 2's turn in an ongoing game. -/
def cli_h_command (current_player : Nat) (game_over : Bool) (b : Board)
    (ai_max_depth : Option Nat) : Option (HintOutput × Option Nat) :=
  if current_player ≠ 2 ∨ game_over = true then none
  else some (hint_run b ai_max_depth)

/-- Unfolding lemmas for the components of `hint_run`. -/
theorem hint_run_snd (b : Board) (md : Option Nat) :
    (hint_run b md).2 = md := rfl

theorem hint_run_suggestions (b : Board) (md : Option Nat) :
    (hint_run b md).1.suggestions =
      (get_possible_moves b).map fun m =>
        (m, minimax_score (apply_move b m) 1 0 none) := rfl

theorem hint_run_best_score (b : Board) (md : Option Nat) :
    (hint_run b md).1.best_score =
      pyMin (((get_possible_moves b).map fun m =>
        (m, minimax_score (apply_move b m) 1 0 none)).map Prod.snd) := rfl

theorem hint_run_best_moves (b : Board) (md : Option Nat) :
    (hint_run b md).1.best_moves =
      (((get_possible_moves b).map fun m =>
        (m, minimax_score (apply_move b m) 1 0 none)).filter fun p =>
          p.2 == (hint_run b md).1.best_score).map Prod.fst := rfl

theorem hint_run_verdict (b : Board) (md : Option Nat) :
    (hint_run b md).1.verdict =
      if ((hint_run b md).1.best_score).lt (.fin 0) then .forcedWin
      else if (hint_run b md).1.best_score = .fin 0 then .forcedDraw
      else .forcedLoss := rfl

/-- The minimum of the suggestion scores is a lower bound on the score
of every legal move. -/
theorem hint_min_le (b : Board) (mv : Move)
    (hmv : mv ∈ get_possible_moves b) :
    (pyMin (((get_possible_moves b).map fun m =>
        (m, minimax_score (apply_move b m) 1 0 none)).map Prod.snd)).le
      (minimax_score (apply_move b mv) 1 0 none) = true := by
  apply pyMin_le_mem
  rw [List.map_map]
  exact List.mem_map_of_mem _ hmv

/-- On an ongoing board the minimum of the suggestion scores is attained
by some legal move. -/
theorem hint_min_attained (b : Board) (hongoing : check_outcome b = none) :
    ∃ mv ∈ get_possible_moves b,
      minimax_score (apply_move b mv) 1 0 none =
        pyMin (((get_possible_moves b).map fun m =>
          (m, minimax_score (apply_move b m) 1 0 none)).map Prod.snd) := by
  have hne := get_possible_moves_ne_nil b hongoing
  have hcomp : (((get_possible_moves b).map fun m =>
      (m, minimax_score (apply_move b m) 1 0 none)).map Prod.snd) =
      ((get_possible_moves b).map fun m =>
        minimax_score (apply_move b m) 1 0 none) := by
    rw [List.map_map]
    rfl
  have hmem : pyMin (((get_possible_moves b).map fun m =>
      (m, minimax_score (apply_move b m) 1 0 none)).map Prod.snd) ∈
      ((get_possible_moves b).map fun m =>
        minimax_score (apply_move b m) 1 0 none) := by
    rw [hcomp]
    exact pyMin_mem _ (by simpa using hne)
  obtain ⟨mv, hmv, heq⟩ := List.mem_map.mp hmem
  exact ⟨mv, hmv, heq⟩

/-- Filtering the suggestions on any score `S` and taking first
components returns exactly the legal moves scoring `S`. -/
theorem hint_argmin_iff (b : Board) (S : XScore) (mv : Move) :
    mv ∈ ((((get_possible_moves b).map fun m =>
        (m, minimax_score (apply_move b m) 1 0 none)).filter fun p =>
          p.2 == S).map Prod.fst) ↔
      mv ∈ get_possible_moves b
      ∧ minimax_score (apply_move b mv) 1 0 none = S := by
  constructor
  · intro hm
    obtain ⟨p, hpf, hfst⟩ := List.mem_map.mp hm
    obtain ⟨hps, hbeq⟩ := List.mem_filter.mp hpf
    obtain ⟨m0, hm0, hpeq⟩ := List.mem_map.mp hps
    subst hpeq
    simp only at hfst
    subst hfst
    refine ⟨hm0, ?_⟩
    simpa using hbeq
  · rintro ⟨hmv, hsc⟩
    have hp : (mv, minimax_score (apply_move b mv) 1 0 none) ∈
        ((get_possible_moves b).map fun m =>
          (m, minimax_score (apply_move b m) 1 0 none)) :=
      List.mem_map_of_mem _ hmv
    have hpf : (mv, minimax_score (apply_move b mv) 1 0 none) ∈
        (((get_possible_moves b).map fun m =>
          (m, minimax_score (apply_move b m) 1 0 none)).filter fun p =>
            p.2 == S) :=
      List.mem_filter.mpr ⟨hp, by simpa using hsc⟩
    exact List.mem_map_of_mem Prod.fst hpf

/-- The two messages the GUI Hint button can log: `best_score < 0` gives
"You can force a win with move(s): ...", anything else gives "No matter
what, opponent can force a win. Best you can do: ...". -/
inductive GuiHintMsg where
  | canForceWin
  | cannotAvoidLoss
deriving DecidableEq, Repr

/-- The data computed by the GUI Hint button. -/
structure GuiHintOutput where
  suggestions : List (Move × XScore)
  best_score : XScore
  best_moves : List Move
  msg : GuiHintMsg
deriving DecidableEq, Repr

/-- The body of the GUI Hint button: identical to the CLI handler except
for the report, which has no zero branch. -/
def gui_hint_run (b : Board) (ai_max_depth : Option Nat) :
    GuiHintOutput × Option Nat :=
  let old_max := ai_max_depth
  -- AI_MAX_DEPTH = None: every score below is computed unbounded
  let suggestions := (get_possible_moves b).map fun m =>
    (m, minimax_score (apply_move b m) 1 0 none)
  let best_score := pyMin (suggestions.map Prod.snd)
  let best_moves := (suggestions.filter fun p => p.2 == best_score).map
    Prod.fst
  let msg :=
    if best_score.lt (.fin 0) then GuiHintMsg.canForceWin
    else GuiHintMsg.cannotAvoidLoss
  (⟨suggestions, best_score, best_moves, msg⟩, old_max)

/-- The GUI Hint button including its guard
(`if not HOTSEAT and (current_player != 2 or game_over)`): refused
(`none`) in human-vs-AI mode outside Player 2's turn of a live game. -/
def gui_hint_button (hotseat : Bool) (current_player : Nat)
    (game_over : Bool) (b : Board) (ai_max_depth : Option Nat) :
    Option (GuiHintOutput × Option Nat) :=
  if !hotseat && (decide (current_player ≠ 2) || game_over) then none
  else some (gui_hint_run b ai_max_depth)

/-- Unfolding lemmas for the components of `gui_hint_run`. -/
theorem gui_hint_run_snd (b : Board) (md : Option Nat) :
    (gui_hint_run b md).2 = md := rfl

theorem gui_hint_run_suggestions (b : Board) (md : Option Nat) :
    (gui_hint_run b md).1.suggestions =
      (get_possible_moves b).map fun m =>
        (m, minimax_score (apply_move b m) 1 0 none) := rfl

theorem gui_hint_run_best_score (b : Board) (md : Option Nat) :
    (gui_hint_run b md).1.best_score =
      pyMin (((get_possible_moves b).map fun m =>
        (m, minimax_score (apply_move b m) 1 0 none)).map Prod.snd) := rfl

theorem gui_hint_run_best_moves (b : Board) (md : Option Nat) :
    (gui_hint_run b md).1.best_moves =
      (((get_possible_moves b).map fun m =>
        (m, minimax_score (apply_move b m) 1 0 none)).filter fun p =>
          p.2 == (gui_hint_run b md).1.best_score).map Prod.fst := rfl

theorem gui_hint_run_msg (b : Board) (md : Option Nat) :
    (gui_hint_run b md).1.msg =
      if ((gui_hint_run b md).1.best_score).lt (.fin 0) then .canForceWin
      else .cannotAvoidLoss := rfl

/-- An ongoing board (one empty cell) whose single legal move (a Noble on
the top-left cell) fills the board into a genuine draw, so the hint
minimum is exactly 0. Its 4 Knights put it outside the per-rank pool —
zero hint minima only occur off the pool invariant, which is why the
dead zero branch went unnoticed. -/
def zeroHintBoard : Board :=
  ⟨[none, some .n, some .k,
    some .k, some .m, some .k,
    some .k, some .m, some .m], rfl⟩

/-- **C4 counterexample.** On `zeroHintBoard`, an ongoing board on the
human's turn, the hint minimum is exactly 0 — yet the GUI Hint button
reports the cannot-avoid-loss message, not a forced draw (the CLI `h`
handler does report the forced draw at the same board). -/
theorem gui_hint_zero_reports_loss :
    check_outcome zeroHintBoard = none
    ∧ (gui_hint_run zeroHintBoard (some 1)).1.best_score = .fin 0
    ∧ (gui_hint_run zeroHintBoard (some 1)).1.msg = .cannotAvoidLoss
    ∧ (hint_run zeroHintBoard (some 1)).1.verdict = .forcedDraw := by
  decide

/-- **C4 amended.** Invoked on the human's (Player 2's) turn in an
ongoing game, both hint handlers run (are not refused), leave
`AI_MAX_DEPTH` restored to its previous value, score every legal human
move by the *unbounded* minimax value of the resulting position with
Player 1 to move, compute the minimum such score (a lower bound that is
attained), and return exactly the moves attaining it. The CLI `h`
handler reports a forced win when the minimum is negative, a forced draw
when it is exactly zero, and an unavoidable loss when it is positive;
the GUI Hint button reports the forced-win message when the minimum is
negative and otherwise — zero included — the unavoidable-loss message. -/
theorem hint_handlers_spec (b : Board) (md : Option Nat)
    (hongoing : check_outcome b = none) :
    (∃ out : HintOutput, cli_h_command 2 false b md = some (out, md)
      ∧ out.suggestions = ((get_possible_moves b).map fun m =>
          (m, minimax_score (apply_move b m) 1 0 none))
      ∧ (∀ mv ∈ get_possible_moves b,
          (out.best_score).le (minimax_score (apply_move b mv) 1 0 none)
            = true)
      ∧ (∃ mv ∈ get_possible_moves b,
          minimax_score (apply_move b mv) 1 0 none = out.best_score)
      ∧ (∀ mv : Move, mv ∈ out.best_moves ↔ mv ∈ get_possible_moves b
          ∧ minimax_score (apply_move b mv) 1 0 none = out.best_score)
      ∧ ((out.best_score).lt (.fin 0) = true → out.verdict = .forcedWin)
      ∧ (out.best_score = .fin 0 → out.verdict = .forcedDraw)
      ∧ ((XScore.fin 0).lt out.best_score = true →
          out.verdict = .forcedLoss))
    ∧ (∀ hotseat : Bool, ∃ gout : GuiHintOutput,
        gui_hint_button hotseat 2 false b md = some (gout, md)
      ∧ gout.suggestions = ((get_possible_moves b).map fun m =>
          (m, minimax_score (apply_move b m) 1 0 none))
      ∧ (∀ mv ∈ get_possible_moves b,
          (gout.best_score).le (minimax_score (apply_move b mv) 1 0 none)
            = true)
      ∧ (∃ mv ∈ get_possible_moves b,
          minimax_score (apply_move b mv) 1 0 none = gout.best_score)
      ∧ (∀ mv : Move, mv ∈ gout.best_moves ↔ mv ∈ get_possible_moves b
          ∧ minimax_score (apply_move b mv) 1 0 none = gout.best_score)
      ∧ ((gout.best_score).lt (.fin 0) = true → gout.msg = .canForceWin)
      ∧ ((gout.best_score).lt (.fin 0) = false →
          gout.msg = .cannotAvoidLoss)) := by
  constructor
  · refine ⟨(hint_run b md).1, rfl, hint_run_suggestions b md, ?_, ?_, ?_,
      ?_, ?_, ?_⟩
    · intro mv hmv
      rw [hint_run_best_score]
      exact hint_min_le b mv hmv
    · obtain ⟨mv, hmv, heq⟩ := hint_min_attained b hongoing
      refine ⟨mv, hmv, ?_⟩
      rw [hint_run_best_score]
      exact heq
    · intro mv
      rw [hint_run_best_moves]
      exact hint_argmin_iff b ((hint_run b md).1.best_score) mv
    · intro h
      rw [hint_run_verdict, if_pos h]
    · intro h
      rw [hint_run_verdict, if_neg, if_pos h]
      rw [h]
      simp [XScore.lt]
    · intro h
      have h1 : ((hint_run b md).1.best_score).lt (.fin 0) = false :=
        XScore.lt_asymm h
      have h2 : (hint_run b md).1.best_score ≠ .fin 0 := by
        intro he
        rw [he] at h
        simp [XScore.lt] at h
      rw [hint_run_verdict, if_neg (by simp [h1]), if_neg h2]
  · intro hotseat
    have hbtn : gui_hint_button hotseat 2 false b md =
        some (gui_hint_run b md) := by
      cases hotseat <;> rfl
    refine ⟨(gui_hint_run b md).1, ?_, gui_hint_run_suggestions b md,
      ?_, ?_, ?_, ?_, ?_⟩
    · rw [hbtn]
      rfl
    · intro mv hmv
      rw [gui_hint_run_best_score]
      exact hint_min_le b mv hmv
    · obtain ⟨mv, hmv, heq⟩ := hint_min_attained b hongoing
      refine ⟨mv, hmv, ?_⟩
      rw [gui_hint_run_best_score]
      exact heq
    · intro mv
      rw [gui_hint_run_best_moves]
      exact hint_argmin_iff b ((gui_hint_run b md).1.best_score) mv
    · intro h
      rw [gui_hint_run_msg, if_pos h]
    · intro h
      rw [gui_hint_run_msg, if_neg (by simp [h])]

/-- **C4 amended, witness.** Both handlers' specification at a concrete
ongoing board (one legal move, which loses at once) under the default
depth limit. -/
theorem hint_handlers_spec_witness :
    (∃ out : HintOutput,
      cli_h_command 2 false staleCacheBoard (some 1) = some (out, some 1)
      ∧ out.suggestions = ((get_possible_moves staleCacheBoard).map fun m =>
          (m, minimax_score (apply_move staleCacheBoard m) 1 0 none))
      ∧ (∀ mv ∈ get_possible_moves staleCacheBoard,
          (out.best_score).le
            (minimax_score (apply_move staleCacheBoard mv) 1 0 none) = true)
      ∧ (∃ mv ∈ get_possible_moves staleCacheBoard,
          minimax_score (apply_move staleCacheBoard mv) 1 0 none
            = out.best_score)
      ∧ (∀ mv : Move, mv ∈ out.best_moves ↔
          mv ∈ get_possible_moves staleCacheBoard
          ∧ minimax_score (apply_move staleCacheBoard mv) 1 0 none
              = out.best_score)
      ∧ ((out.best_score).lt (.fin 0) = true → out.verdict = .forcedWin)
      ∧ (out.best_score = .fin 0 → out.verdict = .forcedDraw)
      ∧ ((XScore.fin 0).lt out.best_score = true →
          out.verdict = .forcedLoss))
    ∧ (∀ hotseat : Bool, ∃ gout : GuiHintOutput,
        gui_hint_button hotseat 2 false staleCacheBoard (some 1)
          = some (gout, some 1)
      ∧ gout.suggestions = ((get_possible_moves staleCacheBoard).map
          fun m => (m, minimax_score (apply_move staleCacheBoard m) 1 0 none))
      ∧ (∀ mv ∈ get_possible_moves staleCacheBoard,
          (gout.best_score).le
            (minimax_score (apply_move staleCacheBoard mv) 1 0 none) = true)
      ∧ (∃ mv ∈ get_possible_moves staleCacheBoard,
          minimax_score (apply_move staleCacheBoard mv) 1 0 none
            = gout.best_score)
      ∧ (∀ mv : Move, mv ∈ gout.best_moves ↔
          mv ∈ get_possible_moves staleCacheBoard
          ∧ minimax_score (apply_move staleCacheBoard mv) 1 0 none
              = gout.best_score)
      ∧ ((gout.best_score).lt (.fin 0) = true → gout.msg = .canForceWin)
      ∧ ((gout.best_score).lt (.fin 0) = false →
          gout.msg = .cannotAvoidLoss)) :=
  hint_handlers_spec staleCacheBoard (some 1) (by decide)

/-!
## Claim C8: the Undo button (`trimatch_gui.py`)

A snapshot `(board, move_history, current_player)` is pushed before every
applied move; the stack is modelled most-recent-first. The GUI pops one
snapshot when `HOTSEAT or (current_player == 2 and game_over)` — i.e. in
two-human mode, *or* in human-vs-AI mode when the game just ended on the
human's turn — and otherwise pops two (the AI's reply and the human's
move), failing with "Nothing to undo." when the stack is too short. The
CLI `u` command of `trimatch.py` implements only the two-pop branch.
-/

/-- One undo snapshot: `(board, move_history, current_player)`. -/
structure Snap where
  board : Board
  log : List (Nat × Move)
  mover : Nat
deriving DecidableEq

/-- The session state touched by the Undo button. -/
structure GameState where
  board : Board
  move_history : List (Nat × Move)
  undo_stack : List Snap
  current_player : Nat
  game_over : Bool
deriving DecidableEq

/-- What the Undo handler logs. -/
inductive UndoMsg where
  | undidOne
  | undidTwo
  | nothingToUndo
deriving DecidableEq, Repr

/-- The Undo button handler of `trimatch_gui.py` as a pure function of
the state (the stack holds the most recent snapshot first, so `pop()`
takes the head). -/
def undo_click (hotseat : Bool) (st : GameState) : GameState × UndoMsg :=
  if hotseat || (st.current_player == 2 && st.game_over) then
    match st.undo_stack with
    | s :: rest =>
      ({ board := s.board, move_history := s.log,
         current_player := s.mover, undo_stack := rest,
         game_over := false }, .undidOne)
    | [] => (st, .nothingToUndo)
  else
    match st.undo_stack with
    | _ :: s2 :: rest =>
      ({ board := s2.board, move_history := s2.log,
         current_player := s2.mover, undo_stack := rest,
         game_over := false }, .undidTwo)
    | _ => (st, .nothingToUndo)

/-- A snapshot taken after some move (board with tiles). -/
def snapA : Snap := ⟨winRowBoard, [], 1⟩

/-- The snapshot of the game start. -/
def snapB : Snap := ⟨empty_board, [], 2⟩

/-- A human-vs-AI state: the human (Player 2) is to move, the game is
over, and two snapshots are available. -/
def undoCounterState : GameState :=
  ⟨empty_board, [], [snapA, snapB], 2, true⟩

/-- **C8 counterexample.** In human-vs-AI mode (`hotseat = false`) with
Player 2 to move and the game over, the handler pops only *one* snapshot
even though two are available: it restores `snapA` (the newest snapshot)
and leaves `snapB` on the stack, while the claim says human-vs-AI mode
always pops two and restores the older snapshot. -/
theorem undo_pops_one_in_ai_mode :
    undo_click false undoCounterState =
      ({ board := snapA.board, move_history := snapA.log,
         current_player := snapA.mover, undo_stack := [snapB],
         game_over := false }, .undidOne)
    ∧ snapA.board ≠ snapB.board := by
  exact ⟨rfl, by decide⟩

/-- **C8 amended.** The Undo handler pops one snapshot when in two-human
mode *or* when it is the human's (Player 2's) turn with the game over;
otherwise (human-vs-AI) it pops two. In either case it restores the
board, move log and mover from the (last-popped) snapshot and clears the
terminal flag; with fewer snapshots than required it is a no-op that
reports "nothing to undo". -/
theorem undo_click_spec (hotseat : Bool) (st : GameState) :
    ((hotseat || (st.current_player == 2 && st.game_over)) = true →
      (st.undo_stack = [] → undo_click hotseat st = (st, .nothingToUndo))
      ∧ (∀ s rest, st.undo_stack = s :: rest →
          undo_click hotseat st =
            ({ board := s.board, move_history := s.log,
               current_player := s.mover, undo_stack := rest,
               game_over := false }, .undidOne)))
    ∧ ((hotseat || (st.current_player == 2 && st.game_over)) = false →
      (st.undo_stack.length < 2 →
        undo_click hotseat st = (st, .nothingToUndo))
      ∧ (∀ s1 s2 rest, st.undo_stack = s1 :: s2 :: rest →
          undo_click hotseat st =
            ({ board := s2.board, move_history := s2.log,
               current_player := s2.mover, undo_stack := rest,
               game_over := false }, .undidTwo))) := by
  constructor
  · intro hcond
    constructor
    · intro hnil
      unfold undo_click
      rw [hcond, hnil]
      rfl
    · intro s rest hcons
      unfold undo_click
      rw [hcond, hcons]
      rfl
  · intro hcond
    constructor
    · intro hlen
      unfold undo_click
      rw [hcond]
      cases hstack : st.undo_stack with
      | nil => rfl
      | cons s rest =>
        cases rest with
        | nil => rfl
        | cons s2 r2 =>
          rw [hstack] at hlen
          simp at hlen
          omega
    · intro s1 s2 rest hcons
      unfold undo_click
      rw [hcond, hcons]
      rfl

/-- **C8 amended, witness.** In an ongoing human-vs-AI state with two
snapshots, Undo pops both and restores the older one. -/
theorem undo_click_spec_witness :
    undo_click false ⟨empty_board, [], [snapA, snapB], 1, false⟩ =
      ({ board := snapB.board, move_history := snapB.log,
         current_player := snapB.mover, undo_stack := [],
         game_over := false }, .undidTwo) :=
  ((undo_click_spec false ⟨empty_board, [], [snapA, snapB], 1, false⟩).2
    (by decide)).2 snapA snapB [] rfl
